import Mathlib

/-!
Verification of the optional-fields subsystem of
src/src/Native/Runtime/inc/OptionalFields.h: the variable-length integer
codec, the field-stream record codec (header byte + VarInt value), and the
build-time layout algorithm of OptionalFieldsManager (interleaved base-address
anchors, out-of-line record placement, delta compression).

The header file declares the operations and documents the encoding and the
layout algorithm in detail; the method bodies live outside the provided
sources, so the operational definitions below are modelled from the spec
(and from the header's own comments), as noted on each definition.
-/

set_option maxHeartbeats 1000000

/-- Modelled from the spec: OptionalFields::EncodingSize (declared at
OptionalFields.h:212, body not in the provided sources).  Number of bytes
needed to VarInt-encode a 32-bit value, per the significant-bits table in the
header comment (OptionalFields.h:122-129): 1 byte for 0-3 significant bits
(v < 8), 2 for 4-10 (v < 1024), 3 for 11-17 (v < 2^17), 4 for 18-24
(v < 2^24), 5 for 25-32. -/
def EncodingSize (v : Nat) : Nat :=
  if v < 8 then 1
  else if v < 1024 then 2
  else if v < 131072 then 3
  else if v < 16777216 then 4
  else 5

/-- Number of significant (non-leading-zero) bits of a value. -/
def sigBits (v : Nat) : Nat := if v = 0 then 0 else Nat.log2 v + 1

/-- Little-endian byte chunks: k bytes of x, least significant first. -/
def leBytes : Nat → Nat → List Nat
  | 0, _ => []
  | k + 1, x => x % 256 :: leBytes k (x / 256)

/-- Read k little-endian bytes from the front of a byte list, returning the
assembled value and the remaining bytes. -/
def readLE : Nat → List Nat → Option (Nat × List Nat)
  | 0, rest => some (0, rest)
  | _ + 1, [] => none
  | k + 1, b :: rest =>
    match readLE k rest with
    | none => none
    | some (x, r) => some (b + 256 * x, r)

/-- Modelled from the spec: the VarInt encoder used by OptionalFields
(referenced at OptionalFields.h:113-114, body not in the provided sources).
The spec fixes only the size table and the round-trip property and leaves the
bit layout as an implementation choice; this scheme stores the extra byte
count in the low 3 bits of the first byte, 5 value bits in its high bits, and
the remaining value bits in little-endian continuation bytes. -/
def varIntEncode (v : Nat) : List Nat :=
  let n := EncodingSize v
  (n - 1 + 8 * (v % 32)) :: leBytes (n - 1) (v / 32)

/-- Modelled from the spec: the VarInt decoder matching varIntEncode.
Returns the decoded 32-bit value and the unconsumed suffix of the stream
(the advanced cursor). -/
def varIntDecode : List Nat → Option (Nat × List Nat)
  | [] => none
  | b :: rest =>
    match readLE (b % 8) rest with
    | none => none
    | some (hi, r) => some (b / 8 + 32 * hi, r)

/-- Modelled from the spec: OptionalFields::EncodeField (declared at
OptionalFields.h:218).  Per the header comment (OptionalFields.h:110-114) a
field is one header byte — tag in the low-order 7 bits, most significant bit
set iff this is the last field — followed by the VarInt-encoded raw value. -/
def EncodeField (tag : Nat) (fLastField : Bool) (v : Nat) : List Nat :=
  ((if fLastField then 128 else 0) + tag % 128) :: varIntEncode v

/-- Modelled from the spec: OptionalFields::DecodeFieldTag (declared at
OptionalFields.h:242).  Reads the header byte, returning the tag, the
last-field flag, and the advanced cursor. -/
def DecodeFieldTag : List Nat → Option (Nat × Bool × List Nat)
  | [] => none
  | b :: rest => some (b % 128, decide (128 ≤ b), rest)

/-- Modelled from the spec: OptionalFields::DecodeFieldValue (declared at
OptionalFields.h:246).  Reads a VarInt value and advances the cursor. -/
def DecodeFieldValue (bytes : List Nat) : Option (Nat × List Nat) :=
  varIntDecode bytes

/-- Encode a whole field stream from (tag, raw value) pairs; the final field
carries the last-field flag (OptionalFields.h:112-113). -/
def encodeFieldList : List (Nat × Nat) → List Nat
  | [] => []
  | [p] => EncodeField p.1 true p.2
  | p :: rest => EncodeField p.1 false p.2 ++ encodeFieldList rest

/-- Association-list lookup of a tag among (tag, value) pairs. -/
def lookupTag : List (Nat × Nat) → Nat → Option Nat
  | [], _ => none
  | (t, v) :: rest, tag => if t = tag then some v else lookupTag rest tag

/-- Fuelled scan of a field stream: decode (tag, isLast) / value pairs until
the requested tag is found or the last-field marker is consumed. -/
def scanGo : Nat → List Nat → Nat → Option Nat
  | 0, _, _ => none
  | _ + 1, [], _ => none
  | fuel + 1, b :: rest, tag =>
    match varIntDecode rest with
    | none => none
    | some (v, rest2) =>
      if b % 128 = tag then some v
      else if 128 ≤ b then none
      else scanGo fuel rest2 tag

/-- Scan a field stream for a tag, returning its raw encoded value if
present.  The stream length bounds the number of fields, so it serves as
fuel. -/
def scanFields (bytes : List Nat) (tag : Nat) : Option Nat :=
  scanGo bytes.length bytes tag

/-- Modelled from the spec: OptionalFields::GetInlineField (declared at
OptionalFields.h:248, body not in the provided sources).  A null stream
reference yields the default without scanning; otherwise the stream is
scanned and the default returned when the tag is absent. -/
def GetInlineField (stream : Option (List Nat)) (tag uiDefaultValue : Nat) : Nat :=
  match stream with
  | none => uiDefaultValue
  | some bytes => (scanFields bytes tag).getD uiDefaultValue

/-- OptionalFieldConstants::OFC_HeaderAlignmentShift (OptionalFields.h:176). -/
def OFC_HeaderAlignmentShift : Nat := 7

/-- OptionalFieldConstants::OFC_HeaderAlignmentBytes (OptionalFields.h:177). -/
def OFC_HeaderAlignmentBytes : Nat := 1 <<< OFC_HeaderAlignmentShift

/-- OptionalFieldConstants::OFC_HeaderAlignmentMask (OptionalFields.h:178). -/
def OFC_HeaderAlignmentMask : Nat := OFC_HeaderAlignmentBytes - 1

/-- Size of a stored base address (a full-width pointer on a 64-bit target,
OptionalFields.h:166-167). -/
def ptrSize : Nat := 8

/-- Mask an address down to the OFC_HeaderAlignmentBytes boundary, the
anchor-locating operation of OptionalFields.h:53-54. -/
def maskDown (n : Nat) : Nat := n - n % OFC_HeaderAlignmentBytes

/-- An out-of-line payload blob (models ZapBlob at this layer: an opaque
byte payload with a size and a natural alignment). -/
structure Blob where
  size : Nat
  align : Nat
deriving DecidableEq

/-- A field value declared on a builder: a raw 32-bit inline value or a
reference to an out-of-line blob (OptionalFieldsBuilder::OptionalField,
OptionalFields.h:306-318). -/
inductive FieldVal where
  | inl (v : Nat)
  | out (b : Blob)
deriving DecidableEq

/-- One OptionalFieldsBuilder: the ordered set of fields declared for one
descriptor, each a (tag, value) pair. -/
structure Builder where
  fields : List (Nat × FieldVal)
deriving DecidableEq

/-- Whether the builder contains at least one out-of-line field
(m_fContainsOutOfLineFields, OptionalFields.h:323). -/
def Builder.hasOutline (bld : Builder) : Bool :=
  bld.fields.any fun f =>
    match f.2 with
    | FieldVal.out _ => true
    | FieldVal.inl _ => false

/-- Round n up to the next multiple of a (alignment padding for out-of-line
records). -/
def alignUp (n a : Nat) : Nat :=
  if a = 0 then n else n + (a - n % a) % a

/-- A field value after out-of-line placement: inline values are unchanged,
out-of-line references carry the offset at which their blob was placed in the
out-of-line section (m_uiOffset, OptionalFields.h:310-312). -/
inductive ResVal where
  | inl (v : Nat)
  | out (ofs : Nat) (b : Blob)
deriving DecidableEq

/-- Modelled from the spec: OptionalFieldsManager::AddOutOfLineRecords
(declared at OptionalFields.h:368, body not in the provided sources).
Walks the fields in declaration order, appending each out-of-line blob to
the out-of-line section at the current write offset (aligned up to the
blob's alignment) and recording that offset.  Returns the new write offset
and the resolved field list. -/
def placeFields : Nat → List (Nat × FieldVal) → Nat × List (Nat × ResVal)
  | n, [] => (n, [])
  | n, (t, FieldVal.inl v) :: rest =>
    let pr := placeFields n rest
    (pr.1, (t, ResVal.inl v) :: pr.2)
  | n, (t, FieldVal.out b) :: rest =>
    let o := alignUp n b.align
    let pr := placeFields (o + b.size) rest
    (pr.1, (t, ResVal.out o b) :: pr.2)

/-- Offset of the first out-of-line record referenced by a resolved field
list: the candidate base address target (OptionalFields.h:364-368). -/
def firstOutlineOfs : List (Nat × ResVal) → Option Nat
  | [] => none
  | (_, ResVal.out o _) :: _ => some o
  | _ :: rest => firstOutlineOfs rest

/-- The raw 32-bit value actually encoded for a resolved field: inline values
directly, out-of-line references as the blob-alignment-scaled delta from the
current base target (OptionalFields.h:116-120, spec section 3). -/
def rawOf (base : Nat) : ResVal → Nat
  | ResVal.inl v => v
  | ResVal.out o b => (o - base) / b.align

/-- The (tag, raw value) pairs encoded for a resolved field list under a
given base target. -/
def rawPairs (base : Nat) (rfs : List (Nat × ResVal)) : List (Nat × Nat) :=
  rfs.map fun p => (p.1, rawOf base p.2)

/-- The encoded byte stream of a resolved field list under a base target. -/
def encodeResolved (base : Nat) (rfs : List (Nat × ResVal)) : List Nat :=
  encodeFieldList (rawPairs base rfs)

/-- Modelled from the spec: OptionalFieldsManager::PlanEncoding (declared at
OptionalFields.h:353, body not in the provided sources).  Computes the size
of the encoded stream under the current base target: one header byte plus the
VarInt size of each raw value. -/
def PlanEncoding (base : Nat) (rfs : List (Nat × ResVal)) : Nat :=
  (rfs.map fun p => 1 + EncodingSize (rawOf base p.2)).sum

/-- Modelled from the spec: OptionalFieldsManager::PerformEncoding (declared
at OptionalFields.h:357).  Encodes the stream; the size must have been
computed by PlanEncoding with no intervening manager state updates, which is
asserted (modelled as returning none when the supplied size disagrees with
the actual encoding). -/
def PerformEncoding (base : Nat) (rfs : List (Nat × ResVal)) (cbEncoding : Nat) :
    Option (List Nat) :=
  let bytes := encodeResolved base rfs
  if bytes.length = cbEncoding then some bytes else none

/-- OptionalFieldsBuilder::AddOutlineField guarded by the setter macro's
assertion (OptionalFields.h:290-295): the blob must not already have been
placed; a placed blob is a contract violation (modelled as none). -/
def AddOutlineField (fields : List (Nat × FieldVal)) (tag : Nat) (b : Blob)
    (blobIsPlaced : Bool) : Option (List (Nat × FieldVal)) :=
  if blobIsPlaced then none else some (fields ++ [(tag, FieldVal.out b)])

/-- The out-of-line placements (offset, blob) referenced by a resolved field
list, in declaration order (m_vecOutOfLineRecords entries created for one
builder). -/
def outInfo (rfs : List (Nat × ResVal)) : List (Nat × Blob) :=
  rfs.filterMap fun p =>
    match p.2 with
    | ResVal.out o b => some (o, b)
    | ResVal.inl _ => none

/-- One item of the field-stream region layout: alignment padding, a base
address anchor (storing the out-of-line offset its address points at), or an
encoded field stream.  Each carries its offset within the region. -/
inductive Item where
  | pad (ofs n : Nat)
  | anchor (ofs target : Nat)
  | stream (ofs : Nat) (bytes : List Nat)
deriving DecidableEq

/-- Start offset of a layout item. -/
def itemStart : Item → Nat
  | Item.pad o _ => o
  | Item.anchor o _ => o
  | Item.stream o _ => o

/-- End offset of a layout item (an anchor stores one full-width address). -/
def itemEnd : Item → Nat
  | Item.pad o n => o + n
  | Item.anchor o _ => o + ptrSize
  | Item.stream o bytes => o + bytes.length

/-- The items tile the region contiguously from s to e, each nonempty. -/
def itemsWF : Nat → List Item → Nat → Prop
  | s, [], e => s = e
  | s, it :: rest, e => itemStart it = s ∧ s < itemEnd it ∧ itemsWF (itemEnd it) rest e

/-- One step of the region shape checker.  State: (has an anchor been seen,
is a padding run pending).  Padding may appear only immediately before an
anchor; a stream may appear only after some anchor. -/
def shapeStep : Bool × Bool → Item → Option (Bool × Bool)
  | (seen, false), Item.pad _ _ => some (seen, true)
  | (_, true), Item.pad _ _ => none
  | (_, _), Item.anchor _ _ => some (true, false)
  | (seen, false), Item.stream _ _ => if seen then some (seen, false) else none
  | (_, true), Item.stream _ _ => none

/-- Run the shape checker over a layout. -/
def shapeFold : List Item → Bool × Bool → Option (Bool × Bool)
  | [], s => some s
  | it :: rest, s =>
    match shapeStep s it with
    | none => none
    | some s' => shapeFold rest s'

/-- Look up the encoded stream located at a given region offset. -/
def findStream (items : List Item) (ofs : Nat) : Option (List Nat) :=
  items.findSome? fun it =>
    match it with
    | Item.stream o bytes => if o = ofs then some bytes else none
    | _ => none

/-- Read the base-address anchor stored at a given region offset, returning
the out-of-line offset its stored address points at. -/
def findAnchorTarget (items : List Item) (ofs : Nat) : Option Nat :=
  items.findSome? fun it =>
    match it with
    | Item.anchor o target => if o = ofs then some target else none
    | _ => none

/-- Modelled from the spec: the run-time decode of an out-of-line field
(OptionalFields::GetOutlineField, declared at OptionalFields.h:251, body not
in the provided sources; accessor macro at OptionalFields.h:229-233).  Null
stream reference yields null; otherwise the stream at the given region
offset is scanned for the tag; on a match the raw delta is scaled by the
blob alignment and added to the base address stored at the anchor located by
masking the stream's own address down to the OFC_HeaderAlignmentBytes
boundary.  oolBase is the load address of the out-of-line section, so the
anchor at target t stores the address oolBase + t. -/
def GetOutlineField (items : List Item) (oolBase : Nat) (stream : Option Nat)
    (tag cbValueAlignment : Nat) : Option Nat :=
  match stream with
  | none => none
  | some streamOfs =>
    match findStream items streamOfs with
    | none => none
    | some bytes =>
      match scanFields bytes tag with
      | none => none
      | some rawDelta =>
        match findAnchorTarget items (maskDown streamOfs) with
        | none => none
        | some target => some (oolBase + target + rawDelta * cbValueAlignment)

/-- Ghost trace of one encoded complex stream: where it was placed, the base
target and anchor governing it, and its resolved fields. -/
structure StreamRecord where
  streamOfs : Nat
  base : Nat
  anchorOfs : Nat
  rfields : List (Nat × ResVal)
deriving DecidableEq

/-- State of the OptionalFieldsManager during layout (OptionalFields.h:370-
377): the out-of-line write offset, the current base target, whether a header
has been emitted, the byte budget left in the current group, the write
position in the field-stream region, the last anchor's offset, the two output
stream lists, the placed out-of-line records, and a ghost trace of the
complex streams. -/
structure ManagerState where
  oolNext : Nat
  currentBase : Nat
  headerEmitted : Bool
  freeSpace : Nat
  pos : Nat
  lastAnchorOfs : Nat
  simple : List (List Nat)
  items : List Item
  ool : List (Nat × Blob)
  records : List StreamRecord
deriving DecidableEq

/-- The manager's state before any builder is processed. -/
def initState : ManagerState :=
  { oolNext := 0, currentBase := 0, headerEmitted := false, freeSpace := 0,
    pos := 0, lastAnchorOfs := 0, simple := [], items := [], ool := [],
    records := [] }

/-- Modelled from the spec: the state change of
OptionalFieldsManager::AddOutOfLineRecords (declared at OptionalFields.h:368):
the builder's out-of-line blobs are appended to the out-of-line section and
the write offset advances. -/
def placeState (st : ManagerState) (bld : Builder) : ManagerState :=
  { st with
    oolNext := (placeFields st.oolNext bld.fields).1,
    ool := st.ool ++ outInfo (placeFields st.oolNext bld.fields).2 }

/-- Modelled from the spec: OptionalFieldsManager::AddNewBaseAddressHeader
(declared at OptionalFields.h:362, body not in the provided sources).  Pads
the field-stream region up to the next OFC_HeaderAlignmentBytes boundary and
emits a base address there, pointing at the given out-of-line target; the
target becomes the current base and the group budget is reset. -/
def AddNewBaseAddressHeader (st : ManagerState) (target : Nat) : ManagerState :=
  let b := alignUp st.pos OFC_HeaderAlignmentBytes
  { st with
    pos := b + ptrSize,
    freeSpace := OFC_HeaderAlignmentBytes - ptrSize,
    headerEmitted := true,
    currentBase := target,
    lastAnchorOfs := b,
    items := st.items ++
      (if st.pos = b then [] else [Item.pad st.pos (b - st.pos)]) ++
      [Item.anchor b target] }

/-- Append one encoded complex stream at the current position, consuming the
group budget and recording the ghost trace. -/
def appendStream (st : ManagerState) (rfs : List (Nat × ResVal)) : ManagerState :=
  let s := PlanEncoding st.currentBase rfs
  { st with
    pos := st.pos + s,
    freeSpace := st.freeSpace - s,
    items := st.items ++ [Item.stream st.pos (encodeResolved st.currentBase rfs)],
    records := st.records ++
      [{ streamOfs := st.pos, base := st.currentBase,
         anchorOfs := st.lastAnchorOfs, rfields := rfs }] }

/-- Modelled from the spec: OptionalFieldsManager::EncodeFields (declared at
OptionalFields.h:335, body not in the provided sources), following spec
section 4.5.  A builder with no out-of-line fields is queued into the
anchor-free stream list.  Otherwise its blobs are appended to the out-of-line
section; if no anchor has been emitted yet one is emitted targeting the first
blob just placed; the encoding size is planned under the current base; if it
exceeds the remaining group budget, padding is consumed, a new anchor is
emitted (again targeting that first blob), and the size re-planned; finally
the stream is encoded and appended. -/
def encodeFieldsStep (st : ManagerState) (bld : Builder) : ManagerState :=
  if bld.hasOutline then
    let rfs := (placeFields st.oolNext bld.fields).2
    let f := (firstOutlineOfs rfs).getD 0
    let st1 := placeState st bld
    let st2 := if st1.headerEmitted then st1 else AddNewBaseAddressHeader st1 f
    let st3 :=
      if PlanEncoding st2.currentBase rfs ≤ st2.freeSpace then st2
      else AddNewBaseAddressHeader st2 f
    appendStream st3 rfs
  else
    { st with
      simple := st.simple ++ [encodeResolved 0 (placeFields st.oolNext bld.fields).2] }

/-- Run the layout over a whole batch of builders in submission order. -/
def runPlanner (builders : List Builder) : ManagerState :=
  builders.foldl encodeFieldsStep initState

/-- One segment of the placed output image. -/
inductive Seg where
  | oolRecord (ofs : Nat) (b : Blob)
  | simpleStream (bytes : List Nat)
  | fieldItem (it : Item)
deriving DecidableEq

/-- Modelled from the spec: OptionalFieldsManager::Place (declared at
OptionalFields.h:338, body not in the provided sources).  Lays out the
output image: the out-of-line data region in incremental placement order,
then the field-stream region — the single run of anchor-free streams followed
by the interleaved anchors and complex streams in emission order. -/
def Place (st : ManagerState) : List Seg :=
  st.ool.map (fun p => Seg.oolRecord p.1 p.2) ++
  st.simple.map Seg.simpleStream ++
  st.items.map Seg.fieldItem

/-- Well-formedness of one field value for the layout theorems: inline values
fit in 32 bits; out-of-line blobs all share the common alignment A (the spec
derives delta integrality from the shared alignment of both offsets). -/
def valWFb (A : Nat) : FieldVal → Bool
  | FieldVal.inl v => decide (v < 4294967296)
  | FieldVal.out b => decide (b.align = A)

/-- Well-formedness of one builder: at most 20 fields (so any stream fits in
one anchor group, the constraint of OptionalFields.h:166-167), distinct tags,
7-bit tags, well-formed values. -/
def builderWF (A : Nat) (bld : Builder) : Bool :=
  decide (bld.fields.length ≤ 20) &&
  decide ((bld.fields.map Prod.fst).Nodup) &&
  bld.fields.all fun f => decide (f.1 < 128) && valWFb A f.2

/-- Demo batch: the end-to-end scenario of spec section 8 — A inline only,
B inline plus an out-of-line 16-byte-aligned 8-byte blob, C another such
blob. -/
def demoBuilders : List Builder :=
  [{ fields := [(0, FieldVal.inl 5)] },
   { fields := [(1, FieldVal.inl 7), (2, FieldVal.out { size := 8, align := 16 })] },
   { fields := [(2, FieldVal.out { size := 8, align := 16 })] }]

/-- Demo batch exercising group overflow: the first complex builder fills 116
of the 120-byte group budget, so the second forces padding and a second
anchor at the 128-byte boundary. -/
def demoBuilders2 : List Builder :=
  [{ fields := (0, FieldVal.out { size := 4, align := 4 }) ::
      (List.range 19).map fun i => (i + 1, FieldVal.inl 16777216) },
   { fields := [(0, FieldVal.out { size := 4, align := 4 }),
                (1, FieldVal.inl 16777216)] }]

/-- Facts recorded about one placed complex stream, relative to the manager
state: its governing anchor and its bytes are in the layout, the stream sits
inside its anchor's alignment group, its tags are 7-bit and distinct, inline
values fit 32 bits, and each out-of-line reference sits at or after the base
target, at an offset the common alignment divides, within the out-of-line
section built so far. -/
structure RecordFacts (A : Nat) (st : ManagerState) (r : StreamRecord) : Prop where
  anchor_mem : Item.anchor r.anchorOfs r.base ∈ st.items
  stream_mem : Item.stream r.streamOfs (encodeResolved r.base r.rfields) ∈ st.items
  anchor_aligned : r.anchorOfs % OFC_HeaderAlignmentBytes = 0
  stream_lb : r.anchorOfs ≤ r.streamOfs
  stream_ub : r.streamOfs < r.anchorOfs + OFC_HeaderAlignmentBytes
  tags_lt : ∀ p ∈ r.rfields, p.1 < 128
  tags_nodup : (r.rfields.map Prod.fst).Nodup
  inl_wf : ∀ p ∈ r.rfields, ∀ v, p.2 = ResVal.inl v → v < 4294967296
  out_wf : ∀ p ∈ r.rfields, ∀ o b, p.2 = ResVal.out o b →
    b.align = A ∧ A ∣ o ∧ A ∣ r.base ∧ r.base ≤ o ∧ o ≤ st.oolNext ∧ (o, b) ∈ st.ool

/-- The manager-state invariant maintained across encodeFieldsStep: the
field-stream region is a contiguous well-shaped tiling; anchors are aligned
and padding runs end at alignment boundaries; the current base target is a
placed out-of-line offset the common alignment divides; the out-of-line
records are placed at monotonically nondecreasing offsets within the section;
when a header has been emitted the position/budget arithmetic pins the open
group; and the ghost records carry the per-stream facts, global placement
monotonicity, and the group-first structure of anchors. -/
structure ManagerInv (A : Nat) (st : ManagerState) : Prop where
  items_wf : itemsWF 0 st.items st.pos
  shape_ok : shapeFold st.items (false, false) = some (st.headerEmitted, false)
  anchors_aligned : ∀ o t, Item.anchor o t ∈ st.items → o % OFC_HeaderAlignmentBytes = 0
  pads_ok : ∀ o n, Item.pad o n ∈ st.items →
    0 < n ∧ n < OFC_HeaderAlignmentBytes ∧ (o + n) % OFC_HeaderAlignmentBytes = 0
  base_le : st.currentBase ≤ st.oolNext
  base_dvd : A ∣ st.currentBase
  free_le : st.freeSpace + ptrSize ≤ OFC_HeaderAlignmentBytes
  ool_pairwise : st.ool.Pairwise fun p q => p.1 ≤ q.1
  ool_le : ∀ p ∈ st.ool, p.1 ≤ st.oolNext
  state_cases :
    (st.headerEmitted = false ∧ st.pos = 0 ∧ st.freeSpace = 0 ∧
      st.records = [] ∧ st.items = []) ∨
    (st.headerEmitted = true ∧
      st.pos + st.freeSpace = st.lastAnchorOfs + OFC_HeaderAlignmentBytes ∧
      st.lastAnchorOfs % OFC_HeaderAlignmentBytes = 0 ∧
      st.lastAnchorOfs + ptrSize ≤ st.pos ∧
      Item.anchor st.lastAnchorOfs st.currentBase ∈ st.items ∧
      st.records ≠ [])
  recs : ∀ r ∈ st.records, RecordFacts A st r
  recs_pairwise : st.records.Pairwise fun r1 r2 =>
    ∀ p ∈ outInfo r1.rfields, ∀ q ∈ outInfo r2.rfields, p.1 ≤ q.1
  recs_chain : List.Chain' (fun r1 r2 =>
    r1.anchorOfs = r2.anchorOfs ∨ firstOutlineOfs r2.rfields = some r2.base)
    st.records
  recs_head : ∀ r ∈ st.records.head?, firstOutlineOfs r.rfields = some r.base
  recs_last : ∀ r ∈ st.records.getLast?, r.anchorOfs = st.lastAnchorOfs

/-- Invariant of the intermediate state reached inside one encodeFieldsStep,
after the builder's blobs have been placed and the governing anchor settled
(freshly emitted or inherited), just before the stream is appended.  rfs is
the builder's resolved field list. -/
structure MidInv (A : Nat) (st : ManagerState) (rfs : List (Nat × ResVal)) : Prop where
  items_wf : itemsWF 0 st.items st.pos
  shape_ok : shapeFold st.items (false, false) = some (true, false)
  anchors_aligned : ∀ o t, Item.anchor o t ∈ st.items → o % OFC_HeaderAlignmentBytes = 0
  pads_ok : ∀ o n, Item.pad o n ∈ st.items →
    0 < n ∧ n < OFC_HeaderAlignmentBytes ∧ (o + n) % OFC_HeaderAlignmentBytes = 0
  emitted : st.headerEmitted = true
  group_arith : st.pos + st.freeSpace = st.lastAnchorOfs + OFC_HeaderAlignmentBytes
  anchor_aligned : st.lastAnchorOfs % OFC_HeaderAlignmentBytes = 0
  anchor_below : st.lastAnchorOfs + ptrSize ≤ st.pos
  anchor_mem : Item.anchor st.lastAnchorOfs st.currentBase ∈ st.items
  base_le : st.currentBase ≤ st.oolNext
  base_dvd : A ∣ st.currentBase
  free_le : st.freeSpace + ptrSize ≤ OFC_HeaderAlignmentBytes
  ool_pairwise : st.ool.Pairwise fun p q => p.1 ≤ q.1
  ool_le : ∀ p ∈ st.ool, p.1 ≤ st.oolNext
  recs : ∀ r ∈ st.records, RecordFacts A st r
  recs_pairwise : st.records.Pairwise fun r1 r2 =>
    ∀ p ∈ outInfo r1.rfields, ∀ q ∈ outInfo r2.rfields, p.1 ≤ q.1
  recs_chain : List.Chain' (fun r1 r2 =>
    r1.anchorOfs = r2.anchorOfs ∨ firstOutlineOfs r2.rfields = some r2.base)
    st.records
  recs_head : ∀ r ∈ st.records.head?, firstOutlineOfs r.rfields = some r.base
  fits : PlanEncoding st.currentBase rfs ≤ st.freeSpace
  rfs_ne : rfs ≠ []
  rfs_tags_lt : ∀ p ∈ rfs, p.1 < 128
  rfs_nodup : (rfs.map Prod.fst).Nodup
  rfs_inl : ∀ p ∈ rfs, ∀ v, p.2 = ResVal.inl v → v < 4294967296
  rfs_out : ∀ p ∈ rfs, ∀ o b, p.2 = ResVal.out o b →
    b.align = A ∧ A ∣ o ∧ st.currentBase ≤ o ∧ o ≤ st.oolNext ∧ (o, b) ∈ st.ool
  link : firstOutlineOfs rfs = some st.currentBase ∨
    (st.records ≠ [] ∧ ∀ r ∈ st.records.getLast?, r.anchorOfs = st.lastAnchorOfs)
  pw_link : ∀ r ∈ st.records, ∀ p ∈ outInfo r.rfields, ∀ q ∈ outInfo rfs, p.1 ≤ q.1

theorem headerAlignmentBytes_eq : OFC_HeaderAlignmentBytes = 128 := by decide

theorem leBytes_length (k : Nat) : ∀ x, (leBytes k x).length = k := by
  induction k with
  | zero => intro x; rfl
  | succ k ih => intro x; simp [leBytes, ih]

theorem readLE_leBytes (k : Nat) :
    ∀ x rest, x < 256 ^ k → readLE k (leBytes k x ++ rest) = some (x, rest) := by
  induction k with
  | zero =>
    intro x rest h
    have hx : x = 0 := by simpa using h
    subst hx
    rfl
  | succ k ih =>
    intro x rest h
    have hcap : x / 256 < 256 ^ k := by
      refine (Nat.div_lt_iff_lt_mul (by norm_num)).2 ?_
      calc x < 256 ^ (k + 1) := h
        _ = 256 ^ k * 256 := pow_succ 256 k
    simp only [leBytes, List.cons_append, readLE, List.append_eq,
      ih (x / 256) rest hcap]
    have hx : x % 256 + 256 * (x / 256) = x := Nat.mod_add_div x 256
    rw [hx]

theorem varIntDecode_chunks (e v : Nat) (rest : List Nat) (he : e < 8)
    (hcap : v / 32 < 256 ^ e) :
    varIntDecode ((e + 8 * (v % 32)) :: (leBytes e (v / 32) ++ rest)) =
      some (v, rest) := by
  have h1 : (e + 8 * (v % 32)) % 8 = e := by omega
  have h2 : (e + 8 * (v % 32)) / 8 = v % 32 := by omega
  simp only [varIntDecode, h1, h2, readLE_leBytes e (v / 32) rest hcap]
  congr 1
  exact congrArg (fun y => (y, rest)) (Nat.mod_add_div v 32)

theorem encodingSize_pos (v : Nat) : 1 ≤ EncodingSize v := by
  unfold EncodingSize; split_ifs <;> omega

theorem encodingSize_le (v : Nat) : EncodingSize v ≤ 5 := by
  unfold EncodingSize; split_ifs <;> omega

theorem varIntEncode_length (v : Nat) : (varIntEncode v).length = EncodingSize v := by
  have h := encodingSize_pos v
  unfold varIntEncode
  simp [leBytes_length]
  omega

theorem varIntDecode_varIntEncode (v : Nat) (hv : v < 4294967296) (rest : List Nat) :
    varIntDecode (varIntEncode v ++ rest) = some (v, rest) := by
  unfold varIntEncode
  rw [List.cons_append]
  apply varIntDecode_chunks
  · have := encodingSize_le v; omega
  · unfold EncodingSize
    split_ifs with h1 h2 h3 h4
    · simpa using (by omega : v / 32 < 1)
    · have : (256 : Nat) ^ (2 - 1) = 256 := by norm_num
      rw [this]; omega
    · have : (256 : Nat) ^ (3 - 1) = 65536 := by norm_num
      rw [this]; omega
    · have : (256 : Nat) ^ (4 - 1) = 16777216 := by norm_num
      rw [this]; omega
    · have : (256 : Nat) ^ (5 - 1) = 4294967296 := by norm_num
      rw [this]; omega

theorem sigBits_le (v k : Nat) : sigBits v ≤ k ↔ v < 2 ^ k := by
  unfold sigBits
  split_ifs with h
  · subst h
    exact iff_of_true (Nat.zero_le k) (pow_pos (by norm_num) k)
  · rw [Nat.add_one_le_iff]
    exact Nat.log2_lt h

/-- C1: for every 32-bit value, VarInt decoding inverts VarInt encoding, and
the byte count of the encoding is exactly the minimal count of the
significant-bits table (1 byte for 0-3 bits, 2 for 4-10, 3 for 11-17, 4 for
18-24, 5 for 25-32). -/
theorem varIntCodec_roundTrip_minimal (v : Nat) (hv : v < 4294967296) :
    varIntDecode (varIntEncode v) = some (v, []) ∧
    (varIntEncode v).length = EncodingSize v ∧
    EncodingSize v =
      (if sigBits v ≤ 3 then 1 else if sigBits v ≤ 10 then 2
       else if sigBits v ≤ 17 then 3 else if sigBits v ≤ 24 then 4 else 5) := by
  refine ⟨?_, varIntEncode_length v, ?_⟩
  · have h := varIntDecode_varIntEncode v hv []
    simpa using h
  · have e3 : sigBits v ≤ 3 ↔ v < 8 := by rw [sigBits_le]; norm_num
    have e10 : sigBits v ≤ 10 ↔ v < 1024 := by rw [sigBits_le]; norm_num
    have e17 : sigBits v ≤ 17 ↔ v < 131072 := by rw [sigBits_le]; norm_num
    have e24 : sigBits v ≤ 24 ↔ v < 16777216 := by rw [sigBits_le]; norm_num
    unfold EncodingSize
    simp only [e3, e10, e17, e24]

/-- Witness for C1 at the boundary value 2^32 - 1. -/
theorem varIntCodec_roundTrip_minimal_witness :
    (4294967295 < 4294967296) ∧
    (varIntDecode (varIntEncode 4294967295) = some (4294967295, []) ∧
     (varIntEncode 4294967295).length = EncodingSize 4294967295 ∧
     EncodingSize 4294967295 =
       (if sigBits 4294967295 ≤ 3 then 1 else if sigBits 4294967295 ≤ 10 then 2
        else if sigBits 4294967295 ≤ 17 then 3 else if sigBits 4294967295 ≤ 24 then 4
        else 5)) :=
  ⟨by decide, varIntCodec_roundTrip_minimal 4294967295 (by decide)⟩

theorem scanGo_encodeFieldList (tag : Nat) :
    ∀ (fs : List (Nat × Nat)) (fuel : Nat),
      (∀ p ∈ fs, p.1 < 128 ∧ p.2 < 4294967296) →
      (encodeFieldList fs).length ≤ fuel →
      scanGo fuel (encodeFieldList fs) tag = lookupTag fs tag := by
  intro fs
  induction fs with
  | nil => intro fuel _ _; cases fuel <;> rfl
  | cons p rest ih =>
    obtain ⟨t, v⟩ := p
    intro fuel hwf hfuel
    obtain ⟨ht0, hv0⟩ := hwf (t, v) (List.mem_cons_self _ _)
    have ht : t < 128 := ht0
    have hv : v < 4294967296 := hv0
    have hmod : t % 128 = t := Nat.mod_eq_of_lt ht
    cases rest with
    | nil =>
      have hlen : (encodeFieldList [(t, v)]).length = 1 + (varIntEncode v).length := by
        simp [encodeFieldList, EncodeField]
        omega
      cases fuel with
      | zero => simp [hlen] at hfuel
      | succ f =>
        have hdec : varIntDecode (varIntEncode v) = some (v, []) := by
          have h := varIntDecode_varIntEncode v hv []
          simpa using h
        have hform : encodeFieldList [(t, v)] = (128 + t) :: varIntEncode v := by
          simp [encodeFieldList, EncodeField, hmod]
        rw [hform]
        have hm : (128 + t) % 128 = t := by omega
        simp only [scanGo, hdec, hm]
        by_cases htag : t = tag
        · simp [lookupTag, htag]
        · simp [lookupTag, htag, show (128 : Nat) ≤ 128 + t by omega]
    | cons q rest' =>
      have hlen :
          (encodeFieldList ((t, v) :: q :: rest')).length =
            1 + (varIntEncode v).length + (encodeFieldList (q :: rest')).length := by
        simp [encodeFieldList, EncodeField]
        omega
      cases fuel with
      | zero => simp [hlen] at hfuel
      | succ f =>
        have hdec :
            varIntDecode (varIntEncode v ++ encodeFieldList (q :: rest')) =
              some (v, encodeFieldList (q :: rest')) :=
          varIntDecode_varIntEncode v hv _
        have hrest : ∀ p ∈ q :: rest', p.1 < 128 ∧ p.2 < 4294967296 := by
          intro p hp; exact hwf p (List.mem_cons_of_mem _ hp)
        have hfuel' : (encodeFieldList (q :: rest')).length ≤ f := by
          rw [hlen] at hfuel; omega
        have hform :
            encodeFieldList ((t, v) :: q :: rest') =
              t :: (varIntEncode v ++ encodeFieldList (q :: rest')) := by
          simp [encodeFieldList, EncodeField, hmod]
        rw [hform]
        simp only [scanGo, hdec, hmod]
        by_cases htag : t = tag
        · simp [lookupTag, htag]
        · simp [lookupTag, htag, show ¬ (128 : Nat) ≤ t by omega,
            ih f hrest hfuel']

theorem scanFields_encodeFieldList (fs : List (Nat × Nat)) (tag : Nat)
    (hwf : ∀ p ∈ fs, p.1 < 128 ∧ p.2 < 4294967296) :
    scanFields (encodeFieldList fs) tag = lookupTag fs tag :=
  scanGo_encodeFieldList tag fs _ hwf le_rfl

theorem lookupTag_eq_none (fs : List (Nat × Nat)) (tag : Nat)
    (h : ∀ p ∈ fs, p.1 ≠ tag) : lookupTag fs tag = none := by
  induction fs with
  | nil => rfl
  | cons p rest ih =>
    obtain ⟨t, v⟩ := p
    have ht : t ≠ tag := h (t, v) (List.mem_cons_self _ _)
    simp only [lookupTag, if_neg ht]
    exact ih fun p hp => h p (List.mem_cons_of_mem _ hp)

theorem lookupTag_mem (fs : List (Nat × Nat)) (tag v : Nat)
    (hmem : (tag, v) ∈ fs) (hnd : (fs.map Prod.fst).Nodup) :
    lookupTag fs tag = some v := by
  induction fs with
  | nil => cases hmem
  | cons p rest ih =>
    obtain ⟨t, w⟩ := p
    rcases List.mem_cons.1 hmem with heq | htail
    · injection heq with h1 h2
      simp [lookupTag, h1.symm, h2]
    · have hnot : t ∉ rest.map Prod.fst := by
        have := hnd
        simp only [List.map_cons, List.nodup_cons] at this
        exact this.1
      have ht : t ≠ tag := by
        intro hcontra
        subst hcontra
        exact hnot (List.mem_map.2 ⟨(t, v), htail, rfl⟩)
      have hnd' : (rest.map Prod.fst).Nodup := by
        simp only [List.map_cons, List.nodup_cons] at hnd
        exact hnd.2
      simp only [lookupTag, if_neg ht]
      exact ih htail hnd'

/-- C3: GetInlineField returns the caller-supplied default on a null stream
reference (without scanning) and on a tag absent from the stream, and returns
exactly the value supplied for a tag present in the stream. -/
theorem getInlineField_correct (fs : List (Nat × Nat)) (tag d : Nat)
    (hwf : ∀ p ∈ fs, p.1 < 128 ∧ p.2 < 4294967296)
    (hnd : (fs.map Prod.fst).Nodup) :
    GetInlineField none tag d = d ∧
    ((∀ p ∈ fs, p.1 ≠ tag) → GetInlineField (some (encodeFieldList fs)) tag d = d) ∧
    (∀ v, (tag, v) ∈ fs → GetInlineField (some (encodeFieldList fs)) tag d = v) := by
  refine ⟨rfl, ?_, ?_⟩
  · intro h
    simp [GetInlineField, scanFields_encodeFieldList fs tag hwf,
      lookupTag_eq_none fs tag h]
  · intro v hv
    simp [GetInlineField, scanFields_encodeFieldList fs tag hwf,
      lookupTag_mem fs tag v hv hnd]

/-- Witness for C3 on the stream encoding tags 3 and 5. -/
theorem getInlineField_correct_witness :
    ((∀ p ∈ [((3 : Nat), (7 : Nat)), (5, 9)], p.1 < 128 ∧ p.2 < 4294967296) ∧
      (([((3 : Nat), (7 : Nat)), (5, 9)].map Prod.fst).Nodup)) ∧
    (GetInlineField none 5 42 = 42 ∧
     ((∀ p ∈ [((3 : Nat), (7 : Nat)), (5, 9)], p.1 ≠ 5) →
       GetInlineField (some (encodeFieldList [(3, 7), (5, 9)])) 5 42 = 42) ∧
     (∀ v, ((5 : Nat), v) ∈ [((3 : Nat), (7 : Nat)), (5, 9)] →
       GetInlineField (some (encodeFieldList [(3, 7), (5, 9)])) 5 42 = v)) :=
  ⟨⟨by decide, by decide⟩,
    getInlineField_correct [(3, 7), (5, 9)] 5 42 (by decide) (by decide)⟩

/-- C8: an encoded field is one header byte — tag in the low 7 bits, most
significant bit the last-field flag — followed by the VarInt value, and
DecodeFieldTag / DecodeFieldValue invert EncodeField, advancing the cursor
exactly past the consumed bytes. -/
theorem fieldCodec_header_inverse (tag : Nat) (htag : tag < 128) (fLast : Bool)
    (v : Nat) (hv : v < 4294967296) (rest : List Nat) :
    EncodeField tag fLast v = ((if fLast then 128 else 0) + tag) :: varIntEncode v ∧
    DecodeFieldTag (EncodeField tag fLast v ++ rest) =
      some (tag, fLast, varIntEncode v ++ rest) ∧
    DecodeFieldValue (varIntEncode v ++ rest) = some (v, rest) := by
  have hmod : tag % 128 = tag := Nat.mod_eq_of_lt htag
  refine ⟨by rw [EncodeField, hmod], ?_, ?_⟩
  · cases fLast
    · have h1 : (0 + tag % 128) % 128 = tag := by omega
      have h2 : decide (128 ≤ 0 + tag % 128) = false := by
        simp only [decide_eq_false_iff_not]
        omega
      simp [EncodeField, DecodeFieldTag, h1, h2]
      omega
    · have h1 : (128 + tag % 128) % 128 = tag := by omega
      have h2 : decide (128 ≤ 128 + tag % 128) = true := by
        simp only [decide_eq_true_eq]
        omega
      simp [EncodeField, DecodeFieldTag, h1, h2]
  · rw [DecodeFieldValue]
    exact varIntDecode_varIntEncode v hv rest

/-- Witness for C8 at tag 5, last-field flag set, value 300. -/
theorem fieldCodec_header_inverse_witness :
    ((5 : Nat) < 128 ∧ (300 : Nat) < 4294967296) ∧
    (EncodeField 5 true 300 = ((if true then 128 else 0) + 5) :: varIntEncode 300 ∧
     DecodeFieldTag (EncodeField 5 true 300 ++ [9]) =
       some (5, true, varIntEncode 300 ++ [9]) ∧
     DecodeFieldValue (varIntEncode 300 ++ [9]) = some (300, [9])) :=
  ⟨⟨by decide, by decide⟩,
    fieldCodec_header_inverse 5 (by decide) true 300 (by decide) [9]⟩

theorem encodeFieldList_length (l : List (Nat × Nat)) :
    (encodeFieldList l).length = (l.map fun p => 1 + EncodingSize p.2).sum := by
  induction l with
  | nil => rfl
  | cons p rest ih =>
    cases rest with
    | nil => simp [encodeFieldList, EncodeField, varIntEncode_length]; omega
    | cons q rest' =>
      simp [encodeFieldList, EncodeField, varIntEncode_length] at ih ⊢
      omega

theorem encodeResolved_length (base : Nat) (rfs : List (Nat × ResVal)) :
    (encodeResolved base rfs).length = PlanEncoding base rfs := by
  rw [encodeResolved, encodeFieldList_length, PlanEncoding, rawPairs]
  rw [List.map_map]
  rfl

/-- C9: the two-phase encode contract between the builders and the manager:
PerformEncoding immediately after PlanEncoding, with no intervening manager
state update, succeeds and produces a stream of exactly the planned size; a
state update between plan and encode (here the current base target moving
from 0 to 1024) makes the stale planned size trip PerformEncoding's size
assertion; and the out-of-line setter asserts that the supplied blob has not
already been placed. -/
theorem twoPhase_contract :
    (∀ base rfs, PerformEncoding base rfs (PlanEncoding base rfs) =
      some (encodeResolved base rfs)) ∧
    PerformEncoding 1024 [(0, ResVal.out 1024 { size := 4, align := 1 })]
      (PlanEncoding 0 [(0, ResVal.out 1024 { size := 4, align := 1 })]) = none ∧
    (∀ fields tag b, AddOutlineField fields tag b true = none ∧
      AddOutlineField fields tag b false = some (fields ++ [(tag, FieldVal.out b)])) := by
  refine ⟨?_, by decide, fun fields tag b => ⟨rfl, rfl⟩⟩
  intro base rfs
  simp [PerformEncoding, encodeResolved_length]

/-- C10: the anchor alignment is concretely fixed: shift 7, so 128 alignment
bytes and mask 127; the anchor-locating mask is defined from these constants
(subtracting the masked-off low bits, equivalently a bitwise and with the
mask); and 128 strictly exceeds the pointer alignment of 64-bit (8) and
32-bit (4) targets, leaving room for a stored pointer plus at least one
minimal two-byte field stream between consecutive anchors. -/
theorem header_alignment_constants :
    OFC_HeaderAlignmentShift = 7 ∧
    OFC_HeaderAlignmentBytes = 128 ∧
    OFC_HeaderAlignmentMask = 127 ∧
    (∀ n, maskDown n = n - (n &&& OFC_HeaderAlignmentMask)) ∧
    8 < OFC_HeaderAlignmentBytes ∧ 4 < OFC_HeaderAlignmentBytes ∧
    ptrSize + 2 ≤ OFC_HeaderAlignmentBytes := by
  refine ⟨rfl, by decide, by decide, ?_, by decide, by decide, by decide⟩
  intro n
  have h := Nat.and_pow_two_sub_one_eq_mod n 7
  rw [maskDown, headerAlignmentBytes_eq]
  rw [show OFC_HeaderAlignmentMask = 2 ^ 7 - 1 by decide, h]

theorem alignUp_ge (n a : Nat) : n ≤ alignUp n a := by
  rw [alignUp]; split <;> omega

theorem alignUp_lt (n a : Nat) (ha : 0 < a) : alignUp n a < n + a := by
  rw [alignUp, if_neg (by omega)]
  have := Nat.mod_lt (a - n % a) ha
  omega

theorem alignUp_dvd (n a : Nat) (ha : a ≠ 0) : a ∣ alignUp n a := by
  rw [alignUp, if_neg ha]
  rcases Nat.eq_zero_or_pos (n % a) with h | h
  · simp only [h, Nat.sub_zero, Nat.mod_self, Nat.add_zero]
    exact Nat.dvd_of_mod_eq_zero h
  · have hlt : n % a < a := Nat.mod_lt _ (Nat.pos_of_ne_zero ha)
    have h2 : (a - n % a) % a = a - n % a := Nat.mod_eq_of_lt (by omega)
    rw [h2]
    have h3 : n % a + a * (n / a) = n := Nat.mod_add_div n a
    have h4 : n + (a - n % a) = a * (n / a) + a := by omega
    rw [h4]
    exact (dvd_mul_right a (n / a)).add (dvd_refl a)

theorem alignUp_hdr_ge (n : Nat) : n ≤ alignUp n OFC_HeaderAlignmentBytes :=
  alignUp_ge n _

theorem alignUp_hdr_lt (n : Nat) :
    alignUp n OFC_HeaderAlignmentBytes < n + OFC_HeaderAlignmentBytes :=
  alignUp_lt n _ (by rw [headerAlignmentBytes_eq]; omega)

theorem alignUp_hdr_mod (n : Nat) :
    alignUp n OFC_HeaderAlignmentBytes % OFC_HeaderAlignmentBytes = 0 := by
  have h := alignUp_dvd n OFC_HeaderAlignmentBytes (by rw [headerAlignmentBytes_eq]; omega)
  exact Nat.mod_eq_zero_of_dvd h

theorem maskDown_eq (a x : Nat) (ha : a % OFC_HeaderAlignmentBytes = 0)
    (h1 : a ≤ x) (h2 : x < a + OFC_HeaderAlignmentBytes) : maskDown x = a := by
  rw [maskDown]
  rw [headerAlignmentBytes_eq] at *
  omega

theorem planEncoding_le (base : Nat) (rfs : List (Nat × ResVal)) :
    PlanEncoding base rfs ≤ 6 * rfs.length := by
  induction rfs with
  | nil => simp [PlanEncoding]
  | cons p rest ih =>
    have h := encodingSize_le (rawOf base p.2)
    simp only [PlanEncoding, List.map_cons, List.sum_cons, List.length_cons] at ih ⊢
    omega

theorem planEncoding_pos (base : Nat) (rfs : List (Nat × ResVal)) (h : rfs ≠ []) :
    1 ≤ PlanEncoding base rfs := by
  cases rfs with
  | nil => exact absurd rfl h
  | cons p rest =>
    simp only [PlanEncoding, List.map_cons, List.sum_cons]
    omega

theorem rawOf_le (base : Nat) (o : Nat) (b : Blob) :
    rawOf base (ResVal.out o b) ≤ o := by
  rw [rawOf]
  exact le_trans (Nat.div_le_self _ _) (Nat.sub_le _ _)

theorem placeFields_mono (fs : List (Nat × FieldVal)) :
    ∀ n, n ≤ (placeFields n fs).1 := by
  induction fs with
  | nil => intro n; simp [placeFields]
  | cons p rest ih =>
    obtain ⟨t, fv⟩ := p
    intro n
    cases fv with
    | inl v => simpa [placeFields] using ih n
    | out b =>
      simp only [placeFields]
      calc n ≤ alignUp n b.align := alignUp_ge _ _
        _ ≤ alignUp n b.align + b.size := Nat.le_add_right _ _
        _ ≤ _ := ih _

theorem placeFields_tags (fs : List (Nat × FieldVal)) :
    ∀ n, (placeFields n fs).2.map Prod.fst = fs.map Prod.fst := by
  induction fs with
  | nil => intro n; simp [placeFields]
  | cons p rest ih =>
    obtain ⟨t, fv⟩ := p
    intro n
    cases fv with
    | inl v => simp [placeFields, ih]
    | out b => simp [placeFields, ih]

theorem placeFields_mem (fs : List (Nat × FieldVal)) :
    ∀ n p, p ∈ (placeFields n fs).2 →
      (∃ v, p.2 = ResVal.inl v ∧ (p.1, FieldVal.inl v) ∈ fs) ∨
      (∃ o b, p.2 = ResVal.out o b ∧ (p.1, FieldVal.out b) ∈ fs ∧
        (b.align ≠ 0 → b.align ∣ o) ∧ n ≤ o ∧ o + b.size ≤ (placeFields n fs).1) := by
  induction fs with
  | nil => intro n p h; simp [placeFields] at h
  | cons q rest ih =>
    obtain ⟨t, fv⟩ := q
    intro n p hmem
    cases fv with
    | inl v =>
      simp only [placeFields] at hmem ⊢
      rcases List.mem_cons.1 hmem with heq | htail
      · subst heq
        exact Or.inl ⟨v, rfl, List.mem_cons_self _ _⟩
      · rcases ih n p htail with ⟨w, h1, h2⟩ | ⟨o, b, h1, h2, h3, h4, h5⟩
        · exact Or.inl ⟨w, h1, List.mem_cons_of_mem _ h2⟩
        · exact Or.inr ⟨o, b, h1, List.mem_cons_of_mem _ h2, h3, h4, h5⟩
    | out b =>
      simp only [placeFields] at hmem ⊢
      rcases List.mem_cons.1 hmem with heq | htail
      · subst heq
        refine Or.inr ⟨alignUp n b.align, b, rfl, List.mem_cons_self _ _,
          fun hb => alignUp_dvd n _ hb, alignUp_ge _ _, ?_⟩
        exact placeFields_mono rest _
      · rcases ih (alignUp n b.align + b.size) p htail with
          ⟨w, h1, h2⟩ | ⟨o, c, h1, h2, h3, h4, h5⟩
        · exact Or.inl ⟨w, h1, List.mem_cons_of_mem _ h2⟩
        · refine Or.inr ⟨o, c, h1, List.mem_cons_of_mem _ h2, h3, ?_, h5⟩
          have := alignUp_ge n b.align
          omega

theorem firstOutline_minimal (fs : List (Nat × FieldVal)) :
    ∀ n f, firstOutlineOfs (placeFields n fs).2 = some f →
      (∃ t b, (t, ResVal.out f b) ∈ (placeFields n fs).2) ∧
      (∀ p ∈ (placeFields n fs).2, ∀ o b, p.2 = ResVal.out o b → f ≤ o) ∧
      n ≤ f := by
  induction fs with
  | nil => intro n f h; simp [placeFields, firstOutlineOfs] at h
  | cons q rest ih =>
    obtain ⟨t, fv⟩ := q
    intro n f h
    cases fv with
    | inl v =>
      simp only [placeFields, firstOutlineOfs] at h ⊢
      obtain ⟨hex, hmin, hge⟩ := ih n f h
      refine ⟨?_, ?_, hge⟩
      · obtain ⟨t', b', hb⟩ := hex
        exact ⟨t', b', List.mem_cons_of_mem _ hb⟩
      · intro p hp o b hpo
        rcases List.mem_cons.1 hp with heq | htail
        · subst heq; simp at hpo
        · exact hmin p htail o b hpo
    | out b =>
      simp only [placeFields, firstOutlineOfs, Option.some.injEq] at h
      subst h
      refine ⟨⟨t, b, List.mem_cons_self _ _⟩, ?_, alignUp_ge _ _⟩
      intro p hp o c hpo
      rcases List.mem_cons.1 hp with heq | htail
      · subst heq
        injection hpo with h1 h2
        omega
      · rcases placeFields_mem rest _ p htail with ⟨w, h1, _⟩ | ⟨o', c', h1, _, _, h4, _⟩
        · rw [hpo] at h1; cases h1
        · rw [hpo] at h1
          injection h1 with h1a h1b
          subst h1a
          omega

theorem firstOutline_of_any (fs : List (Nat × FieldVal)) :
    ∀ n, (fs.any fun f => match f.2 with
        | FieldVal.out _ => true | FieldVal.inl _ => false) = true →
      ∃ f, firstOutlineOfs (placeFields n fs).2 = some f := by
  induction fs with
  | nil => intro n h; simp at h
  | cons q rest ih =>
    obtain ⟨t, fv⟩ := q
    intro n h
    cases fv with
    | inl v =>
      simp only [List.any_cons] at h
      simp only [placeFields, firstOutlineOfs]
      exact ih n (by simpa using h)
    | out b =>
      exact ⟨alignUp n b.align, by simp [placeFields, firstOutlineOfs]⟩

theorem placeFields_no_outline (fs : List (Nat × FieldVal))
    (h : (fs.any fun f => match f.2 with
        | FieldVal.out _ => true | FieldVal.inl _ => false) = false) :
    ∀ n, (placeFields n fs).1 = n ∧ (placeFields n fs).2 = (placeFields 0 fs).2 := by
  induction fs with
  | nil => intro n; simp [placeFields]
  | cons q rest ih =>
    obtain ⟨t, fv⟩ := q
    intro n
    cases fv with
    | inl v =>
      simp only [List.any_cons, Bool.false_or] at h
      have hrest := ih h
      simp only [placeFields]
      exact ⟨(hrest n).1, by rw [(hrest n).2]⟩
    | out b => simp at h

theorem outInfo_mem_iff (rfs : List (Nat × ResVal)) (qo : Nat) (qb : Blob) :
    (qo, qb) ∈ outInfo rfs ↔ ∃ t, (t, ResVal.out qo qb) ∈ rfs := by
  simp only [outInfo, List.mem_filterMap]
  constructor
  · rintro ⟨⟨t, rv⟩, hmem, hf⟩
    cases rv with
    | inl v => simp at hf
    | out o b =>
      simp only [Option.some.injEq, Prod.mk.injEq] at hf
      obtain ⟨h1, h2⟩ := hf
      subst h1; subst h2
      exact ⟨t, hmem⟩
  · rintro ⟨t, hmem⟩
    exact ⟨(t, ResVal.out qo qb), hmem, rfl⟩

theorem outInfo_place_bounds (fs : List (Nat × FieldVal)) (n : Nat) :
    ∀ q ∈ outInfo (placeFields n fs).2, n ≤ q.1 ∧ q.1 + q.2.size ≤ (placeFields n fs).1 := by
  intro q hq
  obtain ⟨qo, qb⟩ := q
  obtain ⟨t, hmem⟩ := (outInfo_mem_iff _ _ _).1 hq
  rcases placeFields_mem fs n _ hmem with ⟨v, h1, _⟩ | ⟨o, b, h1, _, _, h4, h5⟩
  · cases h1
  · injection h1 with h1a h1b
    subst h1a; subst h1b
    exact ⟨h4, h5⟩

theorem outInfo_place_pairwise (fs : List (Nat × FieldVal)) :
    ∀ n, (outInfo (placeFields n fs).2).Pairwise fun p q => p.1 ≤ q.1 := by
  induction fs with
  | nil => intro n; simp [placeFields, outInfo]
  | cons q rest ih =>
    obtain ⟨t, fv⟩ := q
    intro n
    cases fv with
    | inl v =>
      simp only [placeFields, outInfo, List.filterMap_cons]
      exact ih n
    | out b =>
      simp only [placeFields, outInfo, List.filterMap_cons]
      refine List.Pairwise.cons ?_ (ih _)
      intro q hq
      have hb := outInfo_place_bounds rest (alignUp n b.align + b.size) q (by
        simpa [outInfo] using hq)
      simp only
      omega

theorem itemsWF_le (l : List Item) : ∀ s e, itemsWF s l e → s ≤ e := by
  induction l with
  | nil => intro s e h; exact le_of_eq h
  | cons x l' ih =>
    intro s e h
    obtain ⟨h1, h2, h3⟩ := h
    exact le_trans (le_of_lt h2) (ih _ _ h3)

theorem itemsWF_bounds (l : List Item) :
    ∀ s e, itemsWF s l e → ∀ it ∈ l, s ≤ itemStart it ∧ itemEnd it ≤ e := by
  induction l with
  | nil => intro s e _ it h; cases h
  | cons x l' ih =>
    intro s e h it hmem
    obtain ⟨h1, h2, h3⟩ := h
    rcases List.mem_cons.1 hmem with heq | htail
    · subst heq
      exact ⟨le_of_eq h1.symm, itemsWF_le l' _ _ h3⟩
    · obtain ⟨ha, hb⟩ := ih _ _ h3 it htail
      exact ⟨le_trans (le_of_lt h2) (by omega), hb⟩

theorem itemsWF_append (l : List Item) :
    ∀ s e it, itemsWF s l e → itemStart it = e → e < itemEnd it →
      itemsWF s (l ++ [it]) (itemEnd it) := by
  induction l with
  | nil =>
    intro s e it h h1 h2
    subst h
    exact ⟨h1, by omega, rfl⟩
  | cons x l' ih =>
    intro s e it h h1 h2
    obtain ⟨ha, hb, hc⟩ := h
    exact ⟨ha, hb, ih _ _ _ hc h1 h2⟩

theorem findStream_of_mem (l : List Item) :
    ∀ s e ofs bytes, itemsWF s l e → Item.stream ofs bytes ∈ l →
      findStream l ofs = some bytes := by
  induction l with
  | nil => intro s e ofs bytes _ h; cases h
  | cons x l' ih =>
    intro s e ofs bytes hwf hmem
    obtain ⟨h1, h2, h3⟩ := hwf
    rcases List.mem_cons.1 hmem with heq | htail
    · subst heq
      simp [findStream, List.findSome?_cons]
    · cases x with
      | stream o bs =>
        by_cases ho : o = ofs
        · exfalso
          have hb := itemsWF_bounds l' _ _ h3 _ htail
          simp only [itemStart, itemEnd] at h1 h2 hb
          omega
        · simpa [findStream, List.findSome?_cons, ho] using ih _ _ _ _ h3 htail
      | anchor o t' =>
        simpa [findStream, List.findSome?_cons] using ih _ _ _ _ h3 htail
      | pad o n' =>
        simpa [findStream, List.findSome?_cons] using ih _ _ _ _ h3 htail

theorem findAnchorTarget_of_mem (l : List Item) :
    ∀ s e ofs target, itemsWF s l e → Item.anchor ofs target ∈ l →
      findAnchorTarget l ofs = some target := by
  induction l with
  | nil => intro s e ofs target _ h; cases h
  | cons x l' ih =>
    intro s e ofs target hwf hmem
    obtain ⟨h1, h2, h3⟩ := hwf
    rcases List.mem_cons.1 hmem with heq | htail
    · subst heq
      simp [findAnchorTarget, List.findSome?_cons]
    · cases x with
      | anchor o t' =>
        by_cases ho : o = ofs
        · exfalso
          have hb := itemsWF_bounds l' _ _ h3 _ htail
          simp only [itemStart, itemEnd] at h1 h2 hb
          omega
        · simpa [findAnchorTarget, List.findSome?_cons, ho] using ih _ _ _ _ h3 htail
      | stream o bs =>
        simpa [findAnchorTarget, List.findSome?_cons] using ih _ _ _ _ h3 htail
      | pad o n' =>
        simpa [findAnchorTarget, List.findSome?_cons] using ih _ _ _ _ h3 htail

theorem shapeFold_append (l1 l2 : List Item) :
    ∀ s, shapeFold (l1 ++ l2) s =
      match shapeFold l1 s with
      | none => none
      | some s' => shapeFold l2 s' := by
  induction l1 with
  | nil => intro s; simp [shapeFold]
  | cons x l1' ih =>
    intro s
    simp only [List.cons_append, shapeFold]
    cases h : shapeStep s x with
    | none => rfl
    | some s' => exact ih s'

theorem shapeStep_pad (seen : Bool) (o n : Nat) :
    shapeStep (seen, false) (Item.pad o n) = some (seen, true) := rfl

theorem shapeStep_anchor (s : Bool × Bool) (o t : Nat) :
    shapeStep s (Item.anchor o t) = some (true, false) := by
  obtain ⟨a, b⟩ := s
  cases a <;> cases b <;> rfl

theorem shapeStep_stream (o : Nat) (bytes : List Nat) :
    shapeStep (true, false) (Item.stream o bytes) = some (true, false) := rfl

theorem head?_append_left {α : Type} (l : List α) (a : α) (h : l ≠ []) :
    (l ++ [a]).head? = l.head? := by
  cases l with
  | nil => exact absurd rfl h
  | cons x l' => rfl

theorem getLast?_append_singleton {α : Type} (l : List α) (a : α) :
    (l ++ [a]).getLast? = some a :=
  List.getLast?_concat l

theorem chain'_append_singleton {α : Type} {R : α → α → Prop} (l : List α) (a : α)
    (h : List.Chain' R l) (hl : ∀ x ∈ l.getLast?, R x a) : List.Chain' R (l ++ [a]) := by
  rw [List.chain'_append]
  exact ⟨h, List.chain'_singleton a, fun x hx y hy => by
    simp at hy; subst hy; exact hl x hx⟩

theorem pairwise_append_singleton {α : Type} {R : α → α → Prop} (l : List α) (a : α)
    (h : List.Pairwise R l) (hl : ∀ x ∈ l, R x a) : List.Pairwise R (l ++ [a]) := by
  rw [List.pairwise_append]
  exact ⟨h, List.pairwise_singleton R a, fun x hx y hy => by
    simp at hy; subst hy; exact hl x hx⟩

theorem addHeader_inv (st : ManagerState) (target : Nat)
    (hwf : itemsWF 0 st.items st.pos)
    (hshape : shapeFold st.items (false, false) = some (st.headerEmitted, false)) :
    itemsWF 0 (AddNewBaseAddressHeader st target).items
      (AddNewBaseAddressHeader st target).pos ∧
    shapeFold (AddNewBaseAddressHeader st target).items (false, false) =
      some (true, false) ∧
    Item.anchor (alignUp st.pos OFC_HeaderAlignmentBytes) target ∈
      (AddNewBaseAddressHeader st target).items ∧
    (∀ it ∈ st.items, it ∈ (AddNewBaseAddressHeader st target).items) ∧
    (∀ o n, Item.pad o n ∈ (AddNewBaseAddressHeader st target).items →
      Item.pad o n ∈ st.items ∨
      (0 < n ∧ n < OFC_HeaderAlignmentBytes ∧
        (o + n) % OFC_HeaderAlignmentBytes = 0)) ∧
    (∀ o t, Item.anchor o t ∈ (AddNewBaseAddressHeader st target).items →
      Item.anchor o t ∈ st.items ∨ o % OFC_HeaderAlignmentBytes = 0) ∧
    (∀ o bs, Item.stream o bs ∈ (AddNewBaseAddressHeader st target).items →
      Item.stream o bs ∈ st.items) := by
  have hble : st.pos ≤ alignUp st.pos OFC_HeaderAlignmentBytes := alignUp_hdr_ge _
  have hblt : alignUp st.pos OFC_HeaderAlignmentBytes <
      st.pos + OFC_HeaderAlignmentBytes := alignUp_hdr_lt _
  have hbmod : alignUp st.pos OFC_HeaderAlignmentBytes % OFC_HeaderAlignmentBytes = 0 :=
    alignUp_hdr_mod _
  by_cases hpb : st.pos = alignUp st.pos OFC_HeaderAlignmentBytes
  · simp only [AddNewBaseAddressHeader, if_pos hpb, List.append_nil]
    refine ⟨?_, ?_, ?_, ?_, ?_, ?_, ?_⟩
    · have h := itemsWF_append st.items 0 st.pos
        (Item.anchor (alignUp st.pos OFC_HeaderAlignmentBytes) target) hwf
        (by simp only [itemStart]; exact hpb.symm)
        (by simp only [itemStart, itemEnd, ptrSize]; omega)
      simpa [itemEnd] using h
    · rw [shapeFold_append, hshape]
      simp [shapeFold, shapeStep_anchor]
    · simp
    · intro it h; simp [h]
    · intro o n h
      rcases List.mem_append.1 h with h | h
      · exact Or.inl h
      · simp at h
    · intro o t h
      rcases List.mem_append.1 h with h | h
      · exact Or.inl h
      · simp at h
        exact Or.inr (by rw [h.1]; exact hbmod)
    · intro o bs h
      rcases List.mem_append.1 h with h | h
      · exact h
      · simp at h
  · simp only [AddNewBaseAddressHeader, if_neg hpb]
    have hlt : st.pos < alignUp st.pos OFC_HeaderAlignmentBytes := by omega
    have hpadend :
        itemEnd (Item.pad st.pos (alignUp st.pos OFC_HeaderAlignmentBytes - st.pos)) =
          alignUp st.pos OFC_HeaderAlignmentBytes := by
      simp [itemEnd]; omega
    have hwf1 : itemsWF 0 (st.items ++ [Item.pad st.pos
        (alignUp st.pos OFC_HeaderAlignmentBytes - st.pos)])
        (alignUp st.pos OFC_HeaderAlignmentBytes) := by
      have h := itemsWF_append st.items 0 st.pos
        (Item.pad st.pos (alignUp st.pos OFC_HeaderAlignmentBytes - st.pos)) hwf
        (by simp [itemStart]) (by simp [itemEnd]; omega)
      rwa [hpadend] at h
    refine ⟨?_, ?_, ?_, ?_, ?_, ?_, ?_⟩
    · have h := itemsWF_append _ 0 (alignUp st.pos OFC_HeaderAlignmentBytes)
        (Item.anchor (alignUp st.pos OFC_HeaderAlignmentBytes) target) hwf1
        (by simp only [itemStart])
        (by simp only [itemStart, itemEnd, ptrSize]; omega)
      simpa [itemEnd] using h
    · rw [shapeFold_append, shapeFold_append, hshape]
      simp [shapeFold, shapeStep_anchor, shapeStep_pad]
    · simp
    · intro it h; simp [h]
    · intro o n h
      rcases List.mem_append.1 h with h | h
      · rcases List.mem_append.1 h with h | h
        · exact Or.inl h
        · simp at h
          refine Or.inr ⟨by omega, by omega, ?_⟩
          rw [h.1, h.2]
          have : st.pos + (alignUp st.pos OFC_HeaderAlignmentBytes - st.pos) =
              alignUp st.pos OFC_HeaderAlignmentBytes := by omega
          rw [this]; exact hbmod
      · simp at h
    · intro o t h
      rcases List.mem_append.1 h with h | h
      · rcases List.mem_append.1 h with h | h
        · exact Or.inl h
        · simp at h
      · simp at h
        exact Or.inr (by rw [h.1]; exact hbmod)
    · intro o bs h
      rcases List.mem_append.1 h with h | h
      · rcases List.mem_append.1 h with h | h
        · exact h
        · simp at h
      · simp at h

theorem recordFacts_mono (A : Nat) (st st' : ManagerState) (r : StreamRecord)
    (h : RecordFacts A st r)
    (hitems : ∀ it ∈ st.items, it ∈ st'.items)
    (hool : ∀ p ∈ st.ool, p ∈ st'.ool)
    (hnext : st.oolNext ≤ st'.oolNext) : RecordFacts A st' r where
  anchor_mem := hitems _ h.anchor_mem
  stream_mem := hitems _ h.stream_mem
  anchor_aligned := h.anchor_aligned
  stream_lb := h.stream_lb
  stream_ub := h.stream_ub
  tags_lt := h.tags_lt
  tags_nodup := h.tags_nodup
  inl_wf := h.inl_wf
  out_wf := fun p hp o b hpo => by
    obtain ⟨h1, h2, h3, h4, h5, h6⟩ := h.out_wf p hp o b hpo
    exact ⟨h1, h2, h3, h4, le_trans h5 hnext, hool _ h6⟩

theorem appendStream_inv (A : Nat) (st : ManagerState) (rfs : List (Nat × ResVal))
    (h : MidInv A st rfs) : ManagerInv A (appendStream st rfs) := by
  have hs1 : 1 ≤ PlanEncoding st.currentBase rfs := planEncoding_pos _ _ h.rfs_ne
  have hsle : PlanEncoding st.currentBase rfs ≤ st.freeSpace := h.fits
  have hlen : (encodeResolved st.currentBase rfs).length =
      PlanEncoding st.currentBase rfs := encodeResolved_length _ _
  have harith := h.group_arith
  have hbelow := h.anchor_below
  have hfree := h.free_le
  have hIW : itemsWF 0
      (st.items ++ [Item.stream st.pos (encodeResolved st.currentBase rfs)])
      (st.pos + PlanEncoding st.currentBase rfs) := by
    have h1 := itemsWF_append st.items 0 st.pos
      (Item.stream st.pos (encodeResolved st.currentBase rfs)) h.items_wf
      (by simp only [itemStart])
      (by simp only [itemStart, itemEnd]; omega)
    simp only [itemEnd] at h1
    rw [← hlen]
    exact h1
  have hSH :
      shapeFold (st.items ++ [Item.stream st.pos (encodeResolved st.currentBase rfs)])
        (false, false) = some (st.headerEmitted, false) := by
    rw [shapeFold_append, h.shape_ok, h.emitted]
    simp [shapeFold, shapeStep_stream]
  have hAA : ∀ o t, Item.anchor o t ∈
      (st.items ++ [Item.stream st.pos (encodeResolved st.currentBase rfs)]) →
      o % OFC_HeaderAlignmentBytes = 0 := by
    intro o t hmem
    rcases List.mem_append.1 hmem with hm | hm
    · exact h.anchors_aligned o t hm
    · simp at hm
  have hPO : ∀ o n, Item.pad o n ∈
      (st.items ++ [Item.stream st.pos (encodeResolved st.currentBase rfs)]) →
      0 < n ∧ n < OFC_HeaderAlignmentBytes ∧
        (o + n) % OFC_HeaderAlignmentBytes = 0 := by
    intro o n hmem
    rcases List.mem_append.1 hmem with hm | hm
    · exact h.pads_ok o n hm
    · simp at hm
  have hFL : st.freeSpace - PlanEncoding st.currentBase rfs + ptrSize ≤
      OFC_HeaderAlignmentBytes := by omega
  have hSC : st.headerEmitted = true ∧
      st.pos + PlanEncoding st.currentBase rfs +
        (st.freeSpace - PlanEncoding st.currentBase rfs) =
        st.lastAnchorOfs + OFC_HeaderAlignmentBytes ∧
      st.lastAnchorOfs % OFC_HeaderAlignmentBytes = 0 ∧
      st.lastAnchorOfs + ptrSize ≤ st.pos + PlanEncoding st.currentBase rfs ∧
      Item.anchor st.lastAnchorOfs st.currentBase ∈
        (st.items ++ [Item.stream st.pos (encodeResolved st.currentBase rfs)]) ∧
      st.records ++ [StreamRecord.mk st.pos st.currentBase st.lastAnchorOfs rfs] ≠
        [] := by
    refine ⟨h.emitted, by omega, h.anchor_aligned, by omega,
      List.mem_append_left _ h.anchor_mem, by simp⟩
  have hR : ∀ r ∈ st.records ++
      [StreamRecord.mk st.pos st.currentBase st.lastAnchorOfs rfs],
      RecordFacts A (appendStream st rfs) r := by
    intro r hr
    rcases List.mem_append.1 hr with hm | hm
    · refine recordFacts_mono A st _ r (h.recs r hm) ?_ ?_ ?_
      · intro it hit
        show it ∈ st.items ++ [Item.stream st.pos (encodeResolved st.currentBase rfs)]
        exact List.mem_append_left _ hit
      · intro p hp; exact hp
      · exact le_rfl
    · simp only [List.mem_singleton] at hm
      subst hm
      refine
        { anchor_mem := ?_, stream_mem := ?_, anchor_aligned := h.anchor_aligned,
          stream_lb := ?_, stream_ub := ?_, tags_lt := h.rfs_tags_lt,
          tags_nodup := h.rfs_nodup, inl_wf := h.rfs_inl, out_wf := ?_ }
      · show Item.anchor st.lastAnchorOfs st.currentBase ∈
          st.items ++ [Item.stream st.pos (encodeResolved st.currentBase rfs)]
        exact List.mem_append_left _ h.anchor_mem
      · show Item.stream st.pos (encodeResolved st.currentBase rfs) ∈
          st.items ++ [Item.stream st.pos (encodeResolved st.currentBase rfs)]
        exact List.mem_append_right _ (by simp)
      · show st.lastAnchorOfs ≤ st.pos
        omega
      · show st.pos < st.lastAnchorOfs + OFC_HeaderAlignmentBytes
        omega
      · intro p hp o b hpo
        obtain ⟨h1, h2, h3, h4, h5⟩ := h.rfs_out p hp o b hpo
        exact ⟨h1, h2, h.base_dvd, h3, h4, h5⟩
  have hRP : (st.records ++
      [StreamRecord.mk st.pos st.currentBase st.lastAnchorOfs rfs]).Pairwise
      (fun r1 r2 => ∀ p ∈ outInfo r1.rfields, ∀ q ∈ outInfo r2.rfields, p.1 ≤ q.1) :=
    pairwise_append_singleton _ _ h.recs_pairwise (fun r hr => h.pw_link r hr)
  have hRC : List.Chain' (fun r1 r2 =>
      r1.anchorOfs = r2.anchorOfs ∨ firstOutlineOfs r2.rfields = some r2.base)
      (st.records ++ [StreamRecord.mk st.pos st.currentBase st.lastAnchorOfs rfs]) := by
    refine chain'_append_singleton _ _ h.recs_chain ?_
    intro x hx
    rcases h.link with hfresh | ⟨_, hlast⟩
    · exact Or.inr hfresh
    · exact Or.inl (by rw [hlast x hx])
  have hRH : ∀ r ∈ (st.records ++
      [StreamRecord.mk st.pos st.currentBase st.lastAnchorOfs rfs]).head?,
      firstOutlineOfs r.rfields = some r.base := by
    intro r hr
    cases hrecs : st.records with
    | nil =>
      rw [hrecs] at hr
      simp only [List.nil_append, List.head?_cons, Option.mem_def,
        Option.some.injEq] at hr
      subst hr
      rcases h.link with hfresh | ⟨hne, _⟩
      · exact hfresh
      · exact absurd hrecs hne
    | cons r0 rest =>
      have hne : st.records ≠ [] := by rw [hrecs]; simp
      rw [head?_append_left _ _ hne] at hr
      exact h.recs_head r hr
  have hRL : ∀ r ∈ (st.records ++
      [StreamRecord.mk st.pos st.currentBase st.lastAnchorOfs rfs]).getLast?,
      r.anchorOfs = st.lastAnchorOfs := by
    intro r hr
    rw [getLast?_append_singleton] at hr
    simp only [Option.mem_def, Option.some.injEq] at hr
    subst hr
    rfl
  exact
    { items_wf := hIW, shape_ok := hSH, anchors_aligned := hAA, pads_ok := hPO,
      base_le := h.base_le, base_dvd := h.base_dvd, free_le := hFL,
      ool_pairwise := h.ool_pairwise, ool_le := h.ool_le,
      state_cases := Or.inr hSC, recs := hR, recs_pairwise := hRP,
      recs_chain := hRC, recs_head := hRH, recs_last := hRL }

theorem placed_rfs_facts (A : Nat) (hA : 1 ≤ A) (oolNext0 : Nat) (bld : Builder)
    (hout : bld.hasOutline = true)
    (hnodup : (bld.fields.map Prod.fst).Nodup)
    (hfields : ∀ f ∈ bld.fields, f.1 < 128 ∧ valWFb A f.2 = true) :
    (placeFields oolNext0 bld.fields).2 ≠ [] ∧
    (∀ p ∈ (placeFields oolNext0 bld.fields).2, p.1 < 128) ∧
    ((placeFields oolNext0 bld.fields).2.map Prod.fst).Nodup ∧
    (∀ p ∈ (placeFields oolNext0 bld.fields).2, ∀ v, p.2 = ResVal.inl v →
      v < 4294967296) ∧
    (∀ p ∈ (placeFields oolNext0 bld.fields).2, ∀ o b, p.2 = ResVal.out o b →
      b.align = A ∧ A ∣ o ∧ oolNext0 ≤ o ∧
      o ≤ (placeFields oolNext0 bld.fields).1 ∧
      (o, b) ∈ outInfo (placeFields oolNext0 bld.fields).2) ∧
    (placeFields oolNext0 bld.fields).2.length = bld.fields.length := by
  refine ⟨?_, ?_, ?_, ?_, ?_, ?_⟩
  · obtain ⟨f0, hf0⟩ := firstOutline_of_any bld.fields oolNext0 hout
    intro hnil
    rw [hnil] at hf0
    simp [firstOutlineOfs] at hf0
  · intro p hp
    rcases placeFields_mem bld.fields oolNext0 p hp with ⟨v, _, hmem⟩ | ⟨o, b, _, hmem, _⟩
    · exact (hfields _ hmem).1
    · exact (hfields _ hmem).1
  · rw [placeFields_tags]
    exact hnodup
  · intro p hp v hpv
    rcases placeFields_mem bld.fields oolNext0 p hp with
      ⟨w, heq, hmem⟩ | ⟨o, b, heq, _, _⟩
    · rw [hpv] at heq
      injection heq with hw
      subst hw
      have h := (hfields _ hmem).2
      simpa [valWFb] using h
    · rw [hpv] at heq; cases heq
  · intro p hp o b hpo
    rcases placeFields_mem bld.fields oolNext0 p hp with
      ⟨w, heq, _⟩ | ⟨o', b', heq, hmemf, hdvd, hlb, hub⟩
    · rw [hpo] at heq; cases heq
    · rw [hpo] at heq
      injection heq with h1 h2
      subst h1; subst h2
      have halign : b.align = A := by
        have h := (hfields _ hmemf).2
        simpa [valWFb] using h
      refine ⟨halign, ?_, hlb, by omega, ?_⟩
      · rw [← halign]
        exact hdvd (by omega)
      · exact (outInfo_mem_iff _ o b).2 ⟨p.1, by rw [← hpo]; simpa using hp⟩
  · have h := placeFields_tags bld.fields oolNext0
    have h1 : ((placeFields oolNext0 bld.fields).2.map Prod.fst).length =
        (bld.fields.map Prod.fst).length := by rw [h]
    simpa using h1

theorem midInv_fresh (A : Nat) (hA : 1 ≤ A) (st0 : ManagerState) (bld : Builder)
    (inv : ManagerInv A st0) (hout : bld.hasOutline = true)
    (hlen20 : bld.fields.length ≤ 20)
    (hnodup : (bld.fields.map Prod.fst).Nodup)
    (hfields : ∀ f ∈ bld.fields, f.1 < 128 ∧ valWFb A f.2 = true) :
    MidInv A
      (AddNewBaseAddressHeader (placeState st0 bld)
        ((firstOutlineOfs (placeFields st0.oolNext bld.fields).2).getD 0))
      (placeFields st0.oolNext bld.fields).2 := by
  obtain ⟨hne, htags, hnd, hinl, hof, hlenr⟩ :=
    placed_rfs_facts A hA st0.oolNext bld hout hnodup hfields
  obtain ⟨f0, hf0⟩ := firstOutline_of_any bld.fields st0.oolNext hout
  have hfg : (firstOutlineOfs (placeFields st0.oolNext bld.fields).2).getD 0 = f0 := by
    rw [hf0]; rfl
  obtain ⟨⟨t0, b0, hmem0⟩, hmin, hge0⟩ :=
    firstOutline_minimal bld.fields st0.oolNext f0 hf0
  have hNmono : st0.oolNext ≤ (placeFields st0.oolNext bld.fields).1 :=
    placeFields_mono _ _
  obtain ⟨hal0, hdvd0, hlb0, hub0, hoolmem0⟩ := hof _ hmem0 f0 b0 rfl
  obtain ⟨pwf, pshape, pmem_anchor, pmono, ppads, panchors, pstreams⟩ :=
    addHeader_inv (placeState st0 bld)
      ((firstOutlineOfs (placeFields st0.oolNext bld.fields).2).getD 0)
      inv.items_wf inv.shape_ok
  have h128 : OFC_HeaderAlignmentBytes = 128 := headerAlignmentBytes_eq
  have hp8 : ptrSize = 8 := rfl
  refine
    { items_wf := pwf, shape_ok := pshape,
      anchors_aligned := ?_, pads_ok := ?_, emitted := rfl,
      group_arith := ?_, anchor_aligned := ?_, anchor_below := ?_,
      anchor_mem := pmem_anchor, base_le := ?_, base_dvd := ?_, free_le := ?_,
      ool_pairwise := ?_, ool_le := ?_, recs := ?_,
      recs_pairwise := inv.recs_pairwise, recs_chain := inv.recs_chain,
      recs_head := inv.recs_head, fits := ?_, rfs_ne := hne,
      rfs_tags_lt := htags, rfs_nodup := hnd, rfs_inl := hinl,
      rfs_out := ?_, link := ?_, pw_link := ?_ }
  · intro o t hm
    rcases panchors o t hm with hold | hal
    · exact inv.anchors_aligned o t hold
    · exact hal
  · intro o n hm
    rcases ppads o n hm with hold | hfresh
    · exact inv.pads_ok o n hold
    · exact hfresh
  · show alignUp st0.pos OFC_HeaderAlignmentBytes + ptrSize +
      (OFC_HeaderAlignmentBytes - ptrSize) =
      alignUp st0.pos OFC_HeaderAlignmentBytes + OFC_HeaderAlignmentBytes
    omega
  · show alignUp st0.pos OFC_HeaderAlignmentBytes % OFC_HeaderAlignmentBytes = 0
    exact alignUp_hdr_mod st0.pos
  · show alignUp st0.pos OFC_HeaderAlignmentBytes + ptrSize ≤
      alignUp st0.pos OFC_HeaderAlignmentBytes + ptrSize
    exact le_rfl
  · show (firstOutlineOfs (placeFields st0.oolNext bld.fields).2).getD 0 ≤
      (placeFields st0.oolNext bld.fields).1
    rw [hfg]
    exact hub0
  · show A ∣ (firstOutlineOfs (placeFields st0.oolNext bld.fields).2).getD 0
    rw [hfg]
    exact hdvd0
  · show OFC_HeaderAlignmentBytes - ptrSize + ptrSize ≤ OFC_HeaderAlignmentBytes
    omega
  · show (st0.ool ++ outInfo (placeFields st0.oolNext bld.fields).2).Pairwise
      fun p q => p.1 ≤ q.1
    refine List.pairwise_append.2
      ⟨inv.ool_pairwise, outInfo_place_pairwise bld.fields st0.oolNext, ?_⟩
    intro p hp q hq
    have h1 := inv.ool_le p hp
    have h2 := (outInfo_place_bounds bld.fields st0.oolNext q hq).1
    omega
  · intro p hp
    show p.1 ≤ (placeFields st0.oolNext bld.fields).1
    rcases List.mem_append.1 hp with hm | hm
    · have := inv.ool_le p hm
      omega
    · have := (outInfo_place_bounds bld.fields st0.oolNext p hm).2
      omega
  · intro r hr
    refine recordFacts_mono A st0 _ r (inv.recs r hr) ?_ ?_ hNmono
    · intro it hit
      exact pmono it hit
    · intro p hp
      exact List.mem_append_left _ hp
  · show PlanEncoding ((firstOutlineOfs (placeFields st0.oolNext bld.fields).2).getD 0)
      (placeFields st0.oolNext bld.fields).2 ≤ OFC_HeaderAlignmentBytes - ptrSize
    have hle := planEncoding_le
      ((firstOutlineOfs (placeFields st0.oolNext bld.fields).2).getD 0)
      (placeFields st0.oolNext bld.fields).2
    rw [hlenr] at hle
    omega
  · intro p hp o b hpo
    obtain ⟨halign, hdvd, hlb, hub, hmemo⟩ := hof p hp o b hpo
    refine ⟨halign, hdvd, ?_, hub, List.mem_append_right _ hmemo⟩
    show (firstOutlineOfs (placeFields st0.oolNext bld.fields).2).getD 0 ≤ o
    rw [hfg]
    exact hmin p hp o b hpo
  · refine Or.inl ?_
    show firstOutlineOfs (placeFields st0.oolNext bld.fields).2 =
      some ((firstOutlineOfs (placeFields st0.oolNext bld.fields).2).getD 0)
    rw [hfg]
    exact hf0
  · intro r hr p hp q hq
    obtain ⟨po, pb⟩ := p
    obtain ⟨t, hpm⟩ := (outInfo_mem_iff r.rfields po pb).1 hp
    obtain ⟨_, _, _, _, hple, _⟩ := (inv.recs r hr).out_wf _ hpm po pb rfl
    have hq1 := (outInfo_place_bounds bld.fields st0.oolNext q hq).1
    show po ≤ q.1
    omega

theorem midInv_cont (A : Nat) (hA : 1 ≤ A) (st0 : ManagerState) (bld : Builder)
    (inv : ManagerInv A st0) (hout : bld.hasOutline = true)
    (hnodup : (bld.fields.map Prod.fst).Nodup)
    (hfields : ∀ f ∈ bld.fields, f.1 < 128 ∧ valWFb A f.2 = true)
    (hemit : st0.headerEmitted = true)
    (hfit : PlanEncoding st0.currentBase (placeFields st0.oolNext bld.fields).2 ≤
      st0.freeSpace) :
    MidInv A (placeState st0 bld) (placeFields st0.oolNext bld.fields).2 := by
  obtain ⟨hne, htags, hnd, hinl, hof, hlenr⟩ :=
    placed_rfs_facts A hA st0.oolNext bld hout hnodup hfields
  have hNmono : st0.oolNext ≤ (placeFields st0.oolNext bld.fields).1 :=
    placeFields_mono _ _
  rcases inv.state_cases with ⟨hfe, _⟩ | ⟨_, harith, halign, hbelow, hamem, hrne⟩
  · exfalso; rw [hemit] at hfe; cases hfe
  refine
    { items_wf := inv.items_wf, shape_ok := ?_,
      anchors_aligned := inv.anchors_aligned,
      pads_ok := inv.pads_ok, emitted := hemit, group_arith := harith,
      anchor_aligned := halign, anchor_below := hbelow, anchor_mem := hamem,
      base_le := ?_, base_dvd := inv.base_dvd, free_le := inv.free_le,
      ool_pairwise := ?_, ool_le := ?_, recs := ?_,
      recs_pairwise := inv.recs_pairwise, recs_chain := inv.recs_chain,
      recs_head := inv.recs_head, fits := hfit, rfs_ne := hne,
      rfs_tags_lt := htags, rfs_nodup := hnd, rfs_inl := hinl,
      rfs_out := ?_, link := ?_, pw_link := ?_ }
  · rw [← hemit]
    exact inv.shape_ok
  · show st0.currentBase ≤ (placeFields st0.oolNext bld.fields).1
    have := inv.base_le
    omega
  · show (st0.ool ++ outInfo (placeFields st0.oolNext bld.fields).2).Pairwise
      fun p q => p.1 ≤ q.1
    refine List.pairwise_append.2
      ⟨inv.ool_pairwise, outInfo_place_pairwise bld.fields st0.oolNext, ?_⟩
    intro p hp q hq
    have h1 := inv.ool_le p hp
    have h2 := (outInfo_place_bounds bld.fields st0.oolNext q hq).1
    omega
  · intro p hp
    show p.1 ≤ (placeFields st0.oolNext bld.fields).1
    rcases List.mem_append.1 hp with hm | hm
    · have := inv.ool_le p hm
      omega
    · have := (outInfo_place_bounds bld.fields st0.oolNext p hm).2
      omega
  · intro r hr
    refine recordFacts_mono A st0 _ r (inv.recs r hr) ?_ ?_ hNmono
    · intro it hit
      exact hit
    · intro p hp
      exact List.mem_append_left _ hp
  · intro p hp o b hpo
    obtain ⟨halignb, hdvd, hlb, hub, hmemo⟩ := hof p hp o b hpo
    refine ⟨halignb, hdvd, ?_, hub, List.mem_append_right _ hmemo⟩
    show st0.currentBase ≤ o
    have := inv.base_le
    omega
  · refine Or.inr ⟨hrne, ?_⟩
    intro r hr
    exact inv.recs_last r hr
  · intro r hr p hp q hq
    obtain ⟨po, pb⟩ := p
    obtain ⟨t, hpm⟩ := (outInfo_mem_iff r.rfields po pb).1 hp
    obtain ⟨_, _, _, _, hple, _⟩ := (inv.recs r hr).out_wf _ hpm po pb rfl
    have hq1 := (outInfo_place_bounds bld.fields st0.oolNext q hq).1
    show po ≤ q.1
    omega

theorem placeState_headerEmitted (st : ManagerState) (bld : Builder) :
    (placeState st bld).headerEmitted = st.headerEmitted := rfl

theorem encodeFieldsStep_inv (A : Nat) (hA : 1 ≤ A) (st : ManagerState)
    (bld : Builder) (inv : ManagerInv A st) (hwf : builderWF A bld = true) :
    ManagerInv A (encodeFieldsStep st bld) := by
  simp only [builderWF, Bool.and_eq_true, decide_eq_true_eq,
    List.all_eq_true] at hwf
  obtain ⟨⟨hlen20, hnodup⟩, hall⟩ := hwf
  have hfl : ∀ f ∈ bld.fields, f.1 < 128 ∧ valWFb A f.2 = true := hall
  cases hout : bld.hasOutline with
  | false =>
    have hstep : encodeFieldsStep st bld = { st with
        simple := st.simple ++
          [encodeResolved 0 (placeFields st.oolNext bld.fields).2] } := by
      simp [encodeFieldsStep, hout]
    rw [hstep]
    exact ⟨inv.items_wf, inv.shape_ok, inv.anchors_aligned, inv.pads_ok,
      inv.base_le, inv.base_dvd, inv.free_le, inv.ool_pairwise, inv.ool_le,
      inv.state_cases,
      fun r hr => recordFacts_mono A st _ r (inv.recs r hr)
        (fun it hit => hit) (fun p hp => hp) le_rfl,
      inv.recs_pairwise, inv.recs_chain, inv.recs_head, inv.recs_last⟩
  | true =>
    simp only [encodeFieldsStep, hout, if_true]
    cases hemit : st.headerEmitted with
    | false =>
      simp only [placeState_headerEmitted, hemit, Bool.false_eq_true, if_false]
      have hmid := midInv_fresh A hA st bld inv hout hlen20 hnodup hfl
      rw [if_pos hmid.fits]
      exact appendStream_inv A _ _ hmid
    | true =>
      simp only [placeState_headerEmitted, hemit, if_true]
      by_cases hfit : PlanEncoding (placeState st bld).currentBase
          (placeFields st.oolNext bld.fields).2 ≤ (placeState st bld).freeSpace
      · rw [if_pos hfit]
        exact appendStream_inv A _ _
          (midInv_cont A hA st bld inv hout hnodup hfl hemit hfit)
      · rw [if_neg hfit]
        exact appendStream_inv A _ _
          (midInv_fresh A hA st bld inv hout hlen20 hnodup hfl)

theorem initState_inv (A : Nat) : ManagerInv A initState := by
  refine
    { items_wf := rfl, shape_ok := rfl, anchors_aligned := ?_, pads_ok := ?_,
      base_le := le_refl 0, base_dvd := dvd_zero A, free_le := by decide,
      ool_pairwise := List.Pairwise.nil, ool_le := ?_,
      state_cases := Or.inl ⟨rfl, rfl, rfl, rfl, rfl⟩, recs := ?_,
      recs_pairwise := List.Pairwise.nil, recs_chain := List.chain'_nil,
      recs_head := ?_, recs_last := ?_ }
  · intro o t h; cases h
  · intro o n h; cases h
  · intro p h; cases h
  · intro r h; cases h
  · intro r h; cases h
  · intro r h; cases h

theorem runPlanner_inv (A : Nat) (hA : 1 ≤ A) (builders : List Builder)
    (hwf : ∀ b ∈ builders, builderWF A b = true) :
    ManagerInv A (runPlanner builders) := by
  induction builders using List.reverseRecOn with
  | nil => exact initState_inv A
  | append_singleton bs b ih =>
    rw [runPlanner, List.foldl_append, List.foldl_cons, List.foldl_nil]
    exact encodeFieldsStep_inv A hA _ b
      (ih fun x hx => hwf x (List.mem_append_left _ hx))
      (hwf b (List.mem_append_right _ (List.mem_singleton_self b)))

/-- C4: out-of-line blob placement is monotonic: across the processing order
of the field sets, every blob referenced by a later-processed stream record
is placed at an offset at least that of every blob of an earlier-processed
one, and every out-of-line reference sits at or after its stream's base
target, so every encoded delta is non-negative. -/
theorem placement_monotonic (A : Nat) (hA : 1 ≤ A) (builders : List Builder)
    (hwf : ∀ b ∈ builders, builderWF A b = true) :
    ((runPlanner builders).records.Pairwise fun r1 r2 =>
      ∀ p ∈ outInfo r1.rfields, ∀ q ∈ outInfo r2.rfields, p.1 ≤ q.1) ∧
    (∀ r ∈ (runPlanner builders).records, ∀ t o b,
      (t, ResVal.out o b) ∈ r.rfields → r.base ≤ o) := by
  have inv := runPlanner_inv A hA builders hwf
  refine ⟨inv.recs_pairwise, ?_⟩
  intro r hr t o b hmem
  exact ((inv.recs r hr).out_wf _ hmem o b rfl).2.2.2.1

/-- Witness for C4 on the spec section 8 demo batch. -/
theorem placement_monotonic_witness :
    ((1 : Nat) ≤ 16 ∧ (∀ b ∈ demoBuilders, builderWF 16 b = true)) ∧
    ((runPlanner demoBuilders).records.Pairwise fun r1 r2 =>
      ∀ p ∈ outInfo r1.rfields, ∀ q ∈ outInfo r2.rfields, p.1 ≤ q.1) :=
  ⟨⟨by decide, by decide⟩,
    (placement_monotonic 16 (by decide) demoBuilders (by decide)).1⟩

/-- C5: whenever the planner emits a new base-address anchor, the anchor
targets the offset of the first out-of-line blob placed for the first field
set processed after it: the first record overall, and every record whose
anchor differs from its predecessor's, has its base equal to its first
out-of-line offset — and the encoded delta of a field whose blob sits at the
base target is exactly zero. -/
theorem anchor_first_delta_zero (A : Nat) (hA : 1 ≤ A) (builders : List Builder)
    (hwf : ∀ b ∈ builders, builderWF A b = true) :
    (∀ r ∈ (runPlanner builders).records.head?,
      firstOutlineOfs r.rfields = some r.base) ∧
    List.Chain' (fun r1 r2 => r1.anchorOfs = r2.anchorOfs ∨
      firstOutlineOfs r2.rfields = some r2.base) (runPlanner builders).records ∧
    (∀ base b, rawOf base (ResVal.out base b) = 0) := by
  have inv := runPlanner_inv A hA builders hwf
  exact ⟨inv.recs_head, inv.recs_chain, fun base b => by simp [rawOf]⟩

/-- Witness for C5: in the demo batch, builder B (the first with an
out-of-line field) triggers the anchor and its delta is zero. -/
theorem anchor_first_delta_zero_witness :
    ((1 : Nat) ≤ 16 ∧ (∀ b ∈ demoBuilders, builderWF 16 b = true)) ∧
    firstOutlineOfs [(1, ResVal.inl 7), (2, ResVal.out 0 (Blob.mk 8 16))] =
      some 0 ∧
    rawOf 0 (ResVal.out 0 (Blob.mk 8 16)) = 0 :=
  ⟨⟨by decide, by decide⟩,
    (anchor_first_delta_zero 16 (by decide) demoBuilders (by decide)).1
      (StreamRecord.mk 8 0 0 [(1, ResVal.inl 7), (2, ResVal.out 0 (Blob.mk 8 16))])
      (by decide),
    (anchor_first_delta_zero 16 (by decide) demoBuilders (by decide)).2.2 0
      (Blob.mk 8 16)⟩

/-- C6: in any produced layout, every base-address anchor sits at an offset
aligned to OFC_HeaderAlignmentBytes, and every padding run is nonempty,
shorter than one alignment group, and ends exactly at an alignment boundary
(so padding is consumed precisely when the remaining budget is
insufficient and no anchor is ever placed unaligned). -/
theorem anchor_alignment_invariant (A : Nat) (hA : 1 ≤ A)
    (builders : List Builder) (hwf : ∀ b ∈ builders, builderWF A b = true) :
    (∀ o t, Item.anchor o t ∈ (runPlanner builders).items →
      o % OFC_HeaderAlignmentBytes = 0) ∧
    (∀ o n, Item.pad o n ∈ (runPlanner builders).items →
      0 < n ∧ n < OFC_HeaderAlignmentBytes ∧
      (o + n) % OFC_HeaderAlignmentBytes = 0) := by
  have inv := runPlanner_inv A hA builders hwf
  exact ⟨inv.anchors_aligned, inv.pads_ok⟩

/-- Witness for C6 on the overflow demo batch: the second anchor lands
aligned at offset 128 after a 4-byte padding run ending at the boundary. -/
theorem anchor_alignment_invariant_witness :
    ((1 : Nat) ≤ 4 ∧ (∀ b ∈ demoBuilders2, builderWF 4 b = true)) ∧
    (128 : Nat) % OFC_HeaderAlignmentBytes = 0 ∧
    (0 < 4 ∧ (4 : Nat) < OFC_HeaderAlignmentBytes ∧
      ((124 : Nat) + 4) % OFC_HeaderAlignmentBytes = 0) :=
  ⟨⟨by decide, by decide⟩,
    (anchor_alignment_invariant 4 (by decide) demoBuilders2 (by decide)).1
      128 4 (by decide),
    (anchor_alignment_invariant 4 (by decide) demoBuilders2 (by decide)).2
      124 4 (by decide)⟩

theorem appendStream_simple (st : ManagerState) (rfs : List (Nat × ResVal)) :
    (appendStream st rfs).simple = st.simple := rfl

theorem addHeader_simple (st : ManagerState) (t : Nat) :
    (AddNewBaseAddressHeader st t).simple = st.simple := rfl

theorem placeState_simple (st : ManagerState) (bld : Builder) :
    (placeState st bld).simple = st.simple := rfl

theorem foldl_simple (bs : List Builder) :
    ∀ st : ManagerState, (bs.foldl encodeFieldsStep st).simple =
      st.simple ++ (bs.filter fun b => !b.hasOutline).map
        (fun b => encodeResolved 0 (placeFields 0 b.fields).2) := by
  induction bs with
  | nil => intro st; simp
  | cons b rest ih =>
    intro st
    rw [List.foldl_cons, ih]
    cases hout : b.hasOutline with
    | true =>
      have hs : (encodeFieldsStep st b).simple = st.simple := by
        simp only [encodeFieldsStep, hout, if_true, appendStream_simple,
          apply_ite ManagerState.simple, addHeader_simple, placeState_simple,
          ite_self]
      rw [hs]
      simp [List.filter_cons, hout]
    | false =>
      have hnone := placeFields_no_outline b.fields hout
      have hs : (encodeFieldsStep st b).simple =
          st.simple ++ [encodeResolved 0 (placeFields 0 b.fields).2] := by
        simp [encodeFieldsStep, hout, (hnone st.oolNext).2]
      rw [hs]
      simp [List.filter_cons, hout]

theorem runPlanner_simple (builders : List Builder) :
    (runPlanner builders).simple =
      (builders.filter fun b => !b.hasOutline).map
        (fun b => encodeResolved 0 (placeFields 0 b.fields).2) := by
  rw [runPlanner, foldl_simple]
  rfl

/-- C7: Place lays out the output image as the out-of-line data region in
incremental placement order (monotone offsets), then the field-stream
region: the single contiguous run of the anchor-free builders' streams in
processing order, followed by the interleaved layout items, which form
alternating anchors and complex streams (padding only immediately before an
anchor, streams only after an anchor). -/
theorem place_layout (A : Nat) (hA : 1 ≤ A) (builders : List Builder)
    (hwf : ∀ b ∈ builders, builderWF A b = true) :
    Place (runPlanner builders) =
      (runPlanner builders).ool.map (fun p => Seg.oolRecord p.1 p.2) ++
      (runPlanner builders).simple.map Seg.simpleStream ++
      (runPlanner builders).items.map Seg.fieldItem ∧
    (runPlanner builders).simple =
      (builders.filter fun b => !b.hasOutline).map
        (fun b => encodeResolved 0 (placeFields 0 b.fields).2) ∧
    shapeFold (runPlanner builders).items (false, false) =
      some ((runPlanner builders).headerEmitted, false) ∧
    (runPlanner builders).ool.Pairwise (fun p q => p.1 ≤ q.1) := by
  have inv := runPlanner_inv A hA builders hwf
  exact ⟨rfl, runPlanner_simple builders, inv.shape_ok, inv.ool_pairwise⟩

/-- Witness for C7 on the demo batch: builder A is the only anchor-free
stream and forms the simple run; the region shape checker accepts the
interleaved items. -/
theorem place_layout_witness :
    ((1 : Nat) ≤ 16 ∧ (∀ b ∈ demoBuilders, builderWF 16 b = true)) ∧
    (runPlanner demoBuilders).simple =
      (demoBuilders.filter fun b => !b.hasOutline).map
        (fun b => encodeResolved 0 (placeFields 0 b.fields).2) ∧
    shapeFold (runPlanner demoBuilders).items (false, false) =
      some ((runPlanner demoBuilders).headerEmitted, false) :=
  ⟨⟨by decide, by decide⟩,
    (place_layout 16 (by decide) demoBuilders (by decide)).2.1,
    (place_layout 16 (by decide) demoBuilders (by decide)).2.2.1⟩

/-- C2: GetOutlineField returns null on a null stream reference and on a tag
absent from the stream; on a present out-of-line tag it masks the stream's
own offset down to the OFC_HeaderAlignmentBytes boundary, reads the base
address stored by the anchor there, adds the decoded delta scaled by the
tag's blob alignment, and the resulting pointer equals the referenced blob's
placed address (out-of-line section base plus placed offset) exactly. -/
theorem getOutlineField_correct (A : Nat) (hA : 1 ≤ A) (builders : List Builder)
    (hwf : ∀ b ∈ builders, builderWF A b = true)
    (hcap : (runPlanner builders).oolNext < 4294967296) (oolBase : Nat) :
    (∀ tag al, GetOutlineField (runPlanner builders).items oolBase none tag al =
      none) ∧
    ∀ r ∈ (runPlanner builders).records,
      (∀ tag al, (∀ p ∈ r.rfields, p.1 ≠ tag) →
        GetOutlineField (runPlanner builders).items oolBase (some r.streamOfs)
          tag al = none) ∧
      (∀ t o b, (t, ResVal.out o b) ∈ r.rfields →
        (o, b) ∈ (runPlanner builders).ool ∧
        GetOutlineField (runPlanner builders).items oolBase (some r.streamOfs)
          t b.align = some (oolBase + o)) := by
  have inv := runPlanner_inv A hA builders hwf
  refine ⟨fun tag al => rfl, ?_⟩
  intro r hr
  have rf := inv.recs r hr
  have hfs : findStream (runPlanner builders).items r.streamOfs =
      some (encodeResolved r.base r.rfields) :=
    findStream_of_mem _ 0 (runPlanner builders).pos _ _ inv.items_wf rf.stream_mem
  have hwfpairs : ∀ p ∈ rawPairs r.base r.rfields, p.1 < 128 ∧ p.2 < 4294967296 := by
    intro p hp
    obtain ⟨q, hq, hpq⟩ := List.mem_map.1 hp
    subst hpq
    refine ⟨rf.tags_lt q hq, ?_⟩
    cases hqv : q.2 with
    | inl v =>
      have := rf.inl_wf q hq v hqv
      simpa [rawOf, hqv] using this
    | out o b =>
      obtain ⟨_, _, _, _, hoole, _⟩ := rf.out_wf q hq o b hqv
      have h1 : rawOf r.base (ResVal.out o b) ≤ o := rawOf_le _ _ _
      simp only [hqv]
      omega
  have hscan : ∀ tag, scanFields (encodeResolved r.base r.rfields) tag =
      lookupTag (rawPairs r.base r.rfields) tag :=
    fun tag => scanFields_encodeFieldList (rawPairs r.base r.rfields) tag hwfpairs
  have hmask : maskDown r.streamOfs = r.anchorOfs :=
    maskDown_eq r.anchorOfs r.streamOfs rf.anchor_aligned rf.stream_lb rf.stream_ub
  have hfa : findAnchorTarget (runPlanner builders).items r.anchorOfs =
      some r.base :=
    findAnchorTarget_of_mem _ 0 (runPlanner builders).pos _ _ inv.items_wf
      rf.anchor_mem
  constructor
  · intro tag al habs
    have hlk : lookupTag (rawPairs r.base r.rfields) tag = none := by
      apply lookupTag_eq_none
      intro p hp
      obtain ⟨q, hq, hpq⟩ := List.mem_map.1 hp
      subst hpq
      exact habs q hq
    simp [GetOutlineField, hfs, hscan tag, hlk]
  · intro t o b hmem
    obtain ⟨halign, hdvdo, hdvdb, hble, hoole, hoolmem⟩ := rf.out_wf _ hmem o b rfl
    refine ⟨hoolmem, ?_⟩
    have hnd : ((rawPairs r.base r.rfields).map Prod.fst).Nodup := by
      have heq : (rawPairs r.base r.rfields).map Prod.fst =
          r.rfields.map Prod.fst := by
        rw [rawPairs, List.map_map]
        rfl
      rw [heq]
      exact rf.tags_nodup
    have hlk : lookupTag (rawPairs r.base r.rfields) t =
        some (rawOf r.base (ResVal.out o b)) :=
      lookupTag_mem _ _ _ (List.mem_map.2 ⟨(t, ResVal.out o b), hmem, rfl⟩) hnd
    have hraw : rawOf r.base (ResVal.out o b) * b.align = o - r.base := by
      rw [rawOf, halign]
      exact Nat.div_mul_cancel (Nat.dvd_sub' hdvdo hdvdb)
    have hfinal : oolBase + r.base + rawOf r.base (ResVal.out o b) * b.align =
        oolBase + o := by
      rw [hraw]
      omega
    simp [GetOutlineField, hfs, hscan t, hlk, hmask, hfa, hfinal]

/-- Witness for C2 on the spec section 8 demo batch: builder C's out-of-line
pointer decodes to the out-of-line section base (here 4096) plus its blob's
placed offset 16. -/
theorem getOutlineField_correct_witness :
    ((1 : Nat) ≤ 16 ∧ (∀ b ∈ demoBuilders, builderWF 16 b = true) ∧
      (runPlanner demoBuilders).oolNext < 4294967296) ∧
    GetOutlineField (runPlanner demoBuilders).items 4096 (some 12) 2 16 =
      some (4096 + 16) := by
  refine ⟨⟨by decide, by decide, by decide⟩, ?_⟩
  have h := (getOutlineField_correct 16 (by decide) demoBuilders (by decide)
    (by decide) 4096).2
    (StreamRecord.mk 12 0 0 [(2, ResVal.out 16 (Blob.mk 8 16))]) (by decide)
  exact (h.2 2 16 (Blob.mk 8 16) (by decide)).2
